import Mathlib

/-!
Verification of the `gox` package: Knuth's Algorithm X over a dancing-links
representation of an exact cover problem.

The Go program works on a heap of mutually linked `node` values.  We embed it
as an arena: nodes are identified by natural-number indices (index 0 is the
root sentinel, indices `1 .. numCols` are the column headers, cells follow in
allocation order), and the mutable pointer fields `left`, `right`, `up`,
`down` together with the per-column counters are flat lists indexed by node,
which each assignment updates with `List.set`, mirroring the sequence of
assignments in the source statement by statement.  The backing lists are
allocated once at full capacity (`1 + numCols + numRows * numCols`, an upper
bound on the node count); Go instead allocates nodes one by one, but the
spare capacity holds only default values that no execution path ever reads,
so the difference is unobservable.  Ring-walking `for` loops become
fuel-indexed recursions; the fuel is always instantiated large enough that a
well-formed traversal never exhausts it.  Go's `nil` pointers are never
dereferenced by the algorithm except in the two crash scenarios modelled
explicitly below (`GoPanic`), so unset pointer slots simply keep an
unobservable default value.
-/

namespace Gox

set_option maxRecDepth 1000000 in
set_option maxHeartbeats 4000000 in
/-- Index of the root sentinel node in the node arena. -/
def rootNode : Nat := 0

/-- The pointer/counter part of the Go `exactCoverProblem` heap: every field of
`node` that `cover`, `uncover`, `nextCol` and the builders read or write, as
node-indexed lists.  `colIndex` is written by the source but never read back;
it is carried for faithfulness.  `colCount` entries are `Int`, matching Go's
`int`. -/
structure matrixLinks where
  size : Nat
  numRows : Nat
  numCols : Nat
  left : List Nat
  right : List Nat
  up : List Nat
  down : List Nat
  colHead : List Nat
  rowOf : List Nat
  colIndex : List Int
  colCount : List Int
deriving DecidableEq

/-- Read `i.left`. -/
def matrixLinks.leftN (s : matrixLinks) (i : Nat) : Nat := s.left.getD i 0

/-- Read `i.right`. -/
def matrixLinks.rightN (s : matrixLinks) (i : Nat) : Nat := s.right.getD i 0

/-- Read `i.up`. -/
def matrixLinks.upN (s : matrixLinks) (i : Nat) : Nat := s.up.getD i 0

/-- Read `i.down`. -/
def matrixLinks.downN (s : matrixLinks) (i : Nat) : Nat := s.down.getD i 0

/-- Read `i.colHead` (as an arena index; only cells ever have it read). -/
def matrixLinks.colHeadN (s : matrixLinks) (i : Nat) : Nat := s.colHead.getD i 0

/-- Read the index of the row header of cell `i`. -/
def matrixLinks.rowOfN (s : matrixLinks) (i : Nat) : Nat := s.rowOf.getD i 0

/-- Read `i.colCount`. -/
def matrixLinks.colCountN (s : matrixLinks) (i : Nat) : Int := s.colCount.getD i 0

/-- `i.left = v` -/
def setLeft (s : matrixLinks) (i v : Nat) : matrixLinks :=
  { s with left := s.left.set i v }

/-- `i.right = v` -/
def setRight (s : matrixLinks) (i v : Nat) : matrixLinks :=
  { s with right := s.right.set i v }

/-- `i.up = v` -/
def setUp (s : matrixLinks) (i v : Nat) : matrixLinks :=
  { s with up := s.up.set i v }

/-- `i.down = v` -/
def setDown (s : matrixLinks) (i v : Nat) : matrixLinks :=
  { s with down := s.down.set i v }

/-- `i.colCount = v` -/
def setColCount (s : matrixLinks) (i : Nat) (v : Int) : matrixLinks :=
  { s with colCount := s.colCount.set i v }

/-- Body of the inner loop of `cover`, splicing one cell out of its column
ring: `rightNode.up.down = rightNode.down; rightNode.down.up = rightNode.up;
rightNode.colHead.colCount -= 1`. -/
def spliceOutUD (s : matrixLinks) (j : Nat) : matrixLinks :=
  let s1 := setDown s (s.upN j) (s.downN j)
  let s2 := setUp s1 (s1.downN j) (s1.upN j)
  setColCount s2 (s2.colHeadN j) (s2.colCountN (s2.colHeadN j) - 1)

/-- Body of the inner loop of `uncover`, splicing one cell back into its
column ring: `leftNode.up.down = leftNode; leftNode.down.up = leftNode;
leftNode.colHead.colCount += 1`. -/
def spliceInUD (s : matrixLinks) (j : Nat) : matrixLinks :=
  let s1 := setDown s (s.upN j) j
  let s2 := setUp s1 (s1.downN j) j
  setColCount s2 (s2.colHeadN j) (s2.colCountN (s2.colHeadN j) + 1)

/-- Inner loop of `cover`: `for rightNode := rowNode.right; rightNode != rowNode;
rightNode = rightNode.right { rightNode.up.down = rightNode.down;
rightNode.down.up = rightNode.up; rightNode.colHead.colCount -= 1 }`. -/
def coverRow (s : matrixLinks) (rowNode j : Nat) : Nat → matrixLinks
  | 0 => s
  | fuel+1 =>
    if j = rowNode then s
    else
      let s3 := spliceOutUD s j
      coverRow s3 rowNode (s3.rightN j) fuel

/-- Outer loop of `cover`: `for rowNode := head.down; rowNode != head;
rowNode = rowNode.down { ... }`. -/
def coverCol (s : matrixLinks) (head rowNode : Nat) : Nat → matrixLinks
  | 0 => s
  | fuel+1 =>
    if rowNode = head then s
    else
      let s1 := coverRow s rowNode (s.rightN rowNode) s.size
      coverCol s1 head (s1.downN rowNode) fuel

/-- `cover` removes a column from the problem: it unlinks the column header
from the root ring, then splices every other cell of every row present in the
column out of that cell's own column ring. -/
def cover (s : matrixLinks) (head : Nat) : matrixLinks :=
  let s1 := setLeft s (s.rightN head) (s.leftN head)
  let s2 := setRight s1 (s1.leftN head) (s1.rightN head)
  coverCol s2 head (s2.downN head) s2.size

/-- Inner loop of `uncover`: `for leftNode := rowNode.left; leftNode != rowNode;
leftNode = leftNode.left { leftNode.up.down = leftNode; leftNode.down.up =
leftNode; leftNode.colHead.colCount += 1 }`. -/
def uncoverRow (s : matrixLinks) (rowNode j : Nat) : Nat → matrixLinks
  | 0 => s
  | fuel+1 =>
    if j = rowNode then s
    else
      let s3 := spliceInUD s j
      uncoverRow s3 rowNode (s3.leftN j) fuel

/-- Outer loop of `uncover`: `for rowNode := head.up; rowNode != head;
rowNode = rowNode.up { ... }`. -/
def uncoverCol (s : matrixLinks) (head rowNode : Nat) : Nat → matrixLinks
  | 0 => s
  | fuel+1 =>
    if rowNode = head then s
    else
      let s1 := uncoverRow s rowNode (s.leftN rowNode) s.size
      uncoverCol s1 head (s1.upN rowNode) fuel

/-- `uncover` is the mirror image of `cover`: it re-splices the removed cells
walking the rings in the opposite direction, then relinks the column header
into the root ring. -/
def uncover (s : matrixLinks) (head : Nat) : matrixLinks :=
  let s1 := uncoverCol s head (s.upN head) s.size
  let s2 := setLeft s1 (s1.rightN head) head
  setRight s2 (s2.leftN head) head

/-- Loop of `nextCol`: `for n := ret; n != p.root; n = n.right
{ if n.colCount < ret.colCount { ret = n } }`. -/
def nextColLoop (s : matrixLinks) (n ret : Nat) : Nat → Nat
  | 0 => ret
  | fuel+1 =>
    if n = rootNode then ret
    else
      nextColLoop s (s.rightN n) (if s.colCountN n < s.colCountN ret then n else ret) fuel

/-- `nextCol` scans the root ring for the column header with the smallest
remaining count, keeping the first one encountered on ties. -/
def nextCol (s : matrixLinks) : Nat :=
  nextColLoop s (s.rightN rootNode) (s.rightN rootNode) (s.size + 1)

/-- The full Go `exactCoverProblem`: the linked node arena plus row-header data
(`name`, `first` entry cell), the name lookup map (an association list, keys
are unique because duplicate names are rejected at build time), the working
solution stack and the accumulated solutions. Rows are identified by their
index; `rowNames` lists the names in input order. -/
structure exactCoverProblem where
  links : matrixLinks
  rowNames : List String
  rowFirst : List (Option Nat)
  rowsByName : List (String × Nat)
  solutionRows : List Nat
  solutions : List (List String)
deriving DecidableEq

/-- `pushRowToSolution` appends a row to the working solution stack. -/
def pushRowToSolution (p : exactCoverProblem) (r : Nat) : exactCoverProblem :=
  { p with solutionRows := p.solutionRows ++ [r] }

/-- `popRowFromSolution` removes and returns the most recently pushed row. -/
def popRowFromSolution (p : exactCoverProblem) : Option Nat × exactCoverProblem :=
  (p.solutionRows.getLast?, { p with solutionRows := p.solutionRows.dropLast })

/-- The copy of the current solution stack recorded when the matrix is empty:
`soln[i] = solutionRows[i].name`. -/
def snapshotSolution (p : exactCoverProblem) : List String :=
  p.solutionRows.map (fun r => p.rowNames.getD r "")

/-- Loop in `search`: `for rightNode := rowNode.right; rightNode != rowNode;
rightNode = rightNode.right { p.cover(rightNode.colHead) }`. -/
def coverRights (s : matrixLinks) (rowNode j : Nat) : Nat → matrixLinks
  | 0 => s
  | fuel+1 =>
    if j = rowNode then s
    else
      let s1 := cover s (s.colHeadN j)
      coverRights s1 rowNode (s1.rightN j) fuel

/-- Loop in `search`: `for leftNode := rowNode.left; leftNode != rowNode;
leftNode = leftNode.left { p.uncover(leftNode.colHead) }`. -/
def uncoverLefts (s : matrixLinks) (rowNode j : Nat) : Nat → matrixLinks
  | 0 => s
  | fuel+1 =>
    if j = rowNode then s
    else
      let s1 := uncover s (s.colHeadN j)
      uncoverLefts s1 rowNode (s1.leftN j) fuel

/-- The recursive depth-first `search` together with its row loop (`for
rowNode := colHead.down; rowNode != colHead; rowNode = rowNode.down { push;
cover siblings; search; pop; uncover siblings }`), as one fuel-indexed
function: `mode = none` is a `search` call, `mode = some (colHead, rowNode)`
is an iteration of the row loop.  The fuel is an artifact of the embedding:
it is decremented on every recursive call and on every loop iteration, and
`Solve` passes an amount that the bounded search can never exhaust. -/
def searchAux (p : exactCoverProblem) (mode : Option (Nat × Nat)) : Nat → exactCoverProblem
  | 0 => p
  | fuel+1 =>
    match mode with
    | none =>
      if p.links.rightN rootNode = rootNode then
        { p with solutions := p.solutions ++ [snapshotSolution p] }
      else
        let colHead := nextCol p.links
        if p.links.colCountN colHead = 0 then p
        else
          let p1 := { p with links := cover p.links colHead }
          let p2 := searchAux p1 (some (colHead, p1.links.downN colHead)) fuel
          { p2 with links := uncover p2.links colHead }
    | some (colHead, rowNode) =>
      if rowNode = colHead then p
      else
        let p1 := pushRowToSolution p (p.links.rowOfN rowNode)
        let p2 := { p1 with links := coverRights p1.links rowNode (p1.links.rightN rowNode) p1.links.size }
        let p3 := searchAux p2 none fuel
        let p4 := (popRowFromSolution p3).2
        let p5 := { p4 with links := uncoverLefts p4.links rowNode (p4.links.leftN rowNode) p4.links.size }
        searchAux p5 (some (colHead, p5.links.downN rowNode)) fuel

/-- `search` embodies the main structure of the algorithm: the recursive
depth-first exploration entered with `mode = none`. -/
def search (p : exactCoverProblem) (fuel : Nat) : exactCoverProblem :=
  searchAux p none fuel

/-- Fuel passed by `Solve`; grossly larger than the number of steps the search
can take on a well-formed problem. -/
def solveFuel (p : exactCoverProblem) : Nat := (p.links.size + 2) ^ (p.links.size + 2)

/-- `Solve` runs the search and returns the accumulated solutions. -/
def Solve (p : exactCoverProblem) : List (List String) :=
  (search p (solveFuel p)).solutions

/-- `Rows` returns the names of all rows of the problem in input order. -/
def Rows (p : exactCoverProblem) : List String := p.rowNames

/-- The three validation errors `NewExactCoverProblem` can return, one per
`fmt.Errorf` site. -/
inductive GoError where
  | numRowsLE1 : GoError
  | inconsistentRowLength : Nat → Nat → Nat → GoError
  | duplicateRowName : String → GoError
deriving DecidableEq

/-- Go runtime crashes the source can actually hit: indexing `n[rowIndex]`
out of range in `createNodes`, and dereferencing the nil `first` pointer of an
all-false row in `RowIsSolution`. -/
inductive GoPanic where
  | indexOutOfRange : GoPanic
  | nilPointerDereference : GoPanic
deriving DecidableEq

/-- Outcome of `NewExactCoverProblem`: a problem, a returned validation error,
or a runtime panic. -/
inductive BuildResult where
  | ok : exactCoverProblem → BuildResult
  | err : GoError → BuildResult
  | panicked : GoPanic → BuildResult
deriving DecidableEq

/-- Row-length scan in `checkInputs`: report the first row whose length
differs from that of row 0. -/
def badRow (rowLen : Nat) (rows : List (List Bool)) (i : Nat) : Option GoError :=
  match rows with
  | [] => none
  | row :: rest =>
    if row.length ≠ rowLen then some (.inconsistentRowLength rowLen i row.length)
    else badRow rowLen rest (i+1)

/-- `checkInputs`: rejects a matrix with at most one row, then rejects ragged
rows.  NOTE: the names `n` are accepted unexamined. -/
def checkInputs (m : List (List Bool)) (_n : List String) : Option GoError :=
  if m.length ≤ 1 then some .numRowsLE1
  else badRow (m.headD []).length m 0

/-- Capacity of the backing arena: root + column headers + one potential cell
per matrix entry. -/
def arenaCap (numRows numCols : Nat) : Nat := 1 + numCols + numRows * numCols

/-- The freshly allocated problem: only the root node exists, linked to
itself, with `colIndex = -1`. -/
def emptyLinks (numRows numCols : Nat) : matrixLinks :=
  { size := 1, numRows := numRows, numCols := numCols,
    left := List.replicate (arenaCap numRows numCols) rootNode,
    right := List.replicate (arenaCap numRows numCols) rootNode,
    up := List.replicate (arenaCap numRows numCols) rootNode,
    down := List.replicate (arenaCap numRows numCols) rootNode,
    colHead := List.replicate (arenaCap numRows numCols) rootNode,
    rowOf := List.replicate (arenaCap numRows numCols) 0,
    colIndex := (List.replicate (arenaCap numRows numCols) (0 : Int)).set rootNode (-1),
    colCount := List.replicate (arenaCap numRows numCols) 0 }

/-- One allocation step of `allocateColHeaders`: the next free index becomes a
column header carrying its column index. -/
def allocateColHeadersAux (s : matrixLinks) : Nat → matrixLinks
  | 0 => s
  | k+1 =>
    let s1 := { s with colIndex := s.colIndex.set s.size ((s.size : Int) - 1),
                       size := s.size + 1 }
    allocateColHeadersAux s1 k

/-- `allocateColHeaders`: column `i` gets header node `i + 1`. -/
def allocateColHeaders (s : matrixLinks) : matrixLinks :=
  allocateColHeadersAux s s.numCols

/-- One step of `initializeColHeaders`, for header `h`:
`n.up = n; n.down = n; n.right = root; n.left = root.left;
root.left.right = n; root.left = n`. -/
def initColHeadersAux (s : matrixLinks) (h : Nat) : Nat → matrixLinks
  | 0 => s
  | k+1 =>
    let s1 := setUp s h h
    let s2 := setDown s1 h h
    let s3 := setRight s2 h rootNode
    let s4 := setLeft s3 h (s3.leftN rootNode)
    let s5 := setRight s4 (s4.leftN rootNode) h
    let s6 := setLeft s5 rootNode h
    initColHeadersAux s6 (h+1) k

/-- `initializeColHeaders`: inserts headers `1 .. numCols` into the root ring
in order. -/
def initColHeaders (s : matrixLinks) : matrixLinks :=
  initColHeadersAux s 1 s.numCols

/-- Creation of a single cell of `createNodes` (body of the `if elem` branch
of `for colIndex, elem := range m[rowIndex]`): allocate the cell, link it at
the end of the row ring and the bottom of its column ring, record the row's
entry point on first use, and bump the column counter. -/
def addOneCell (p : exactCoverProblem) (rowIndex : Nat) (firstNode : Option Nat)
    (colIndex : Nat) : exactCoverProblem :=
  let s := p.links
  let nd := s.size
  let hd := colIndex + 1
  let s0 := { s with size := s.size + 1,
                     rowOf := s.rowOf.set nd rowIndex,
                     colHead := s.colHead.set nd hd,
                     colIndex := s.colIndex.set nd (colIndex : Int) }
  let sRow :=
    match firstNode with
    | none =>
      let s1 := setLeft s0 nd nd
      setRight s1 nd nd
    | some f =>
      let s1 := setRight s0 nd f
      let s2 := setLeft s1 nd (s1.leftN f)
      let s3 := setRight s2 (s2.leftN f) nd
      setLeft s3 f nd
  let p1 := { p with links := sRow }
  let p2 :=
    if (p1.rowFirst.getD rowIndex none).isNone then
      { p1 with rowFirst := p1.rowFirst.set rowIndex (some nd) }
    else p1
  let t := p2.links
  let t1 := setDown t nd hd
  let t2 := setUp t1 nd (t1.upN hd)
  let t3 := setDown t2 (t2.upN hd) nd
  let t4 := setUp t3 hd nd
  let t5 := setColCount t4 hd (t4.colCountN hd + 1)
  { p2 with links := t5 }

/-- Cell-creation loop of `createNodes` for one row (`for colIndex, elem :=
range m[rowIndex]`): each `true` entry adds one cell via `addOneCell`. -/
def addRowCellsAux (p : exactCoverProblem) (rowIndex : Nat) (firstNode : Option Nat)
    (colIndex : Nat) (cells : List Bool) : exactCoverProblem :=
  match cells with
  | [] => p
  | elem :: rest =>
    if elem then
      addRowCellsAux (addOneCell p rowIndex firstNode colIndex) rowIndex
        (some (firstNode.getD p.links.size)) (colIndex + 1) rest
    else
      addRowCellsAux p rowIndex firstNode (colIndex + 1) rest

/-- Row loop of `createNodes`: reads `n[rowIndex]` (panicking if out of
range), rejects duplicate names, registers the row header, then creates the
row's cells. -/
def createNodesAux (p : exactCoverProblem) (n : List String) (rowIndex : Nat) :
    List (List Bool) → BuildResult
  | [] => .ok p
  | row :: rest =>
    match n.get? rowIndex with
    | none => .panicked .indexOutOfRange
    | some name =>
      if (p.rowsByName.lookup name).isSome then
        .err (.duplicateRowName name)
      else
        let p1 := { p with rowsByName := p.rowsByName ++ [(name, rowIndex)],
                           rowNames := p.rowNames ++ [name],
                           rowFirst := p.rowFirst ++ [none] }
        let p2 := addRowCellsAux p1 rowIndex none 0 row
        createNodesAux p2 n (rowIndex + 1) rest

/-- `NewExactCoverProblem`: validate, then build root, column headers and
cells. -/
def NewExactCoverProblem (m : List (List Bool)) (n : List String) : BuildResult :=
  match checkInputs m n with
  | some e => .err e
  | none =>
    let s0 := emptyLinks m.length (m.headD []).length
    let s1 := initColHeaders (allocateColHeaders s0)
    let p : exactCoverProblem :=
      { links := s1, rowNames := [], rowFirst := [], rowsByName := [],
        solutionRows := [], solutions := [] }
    createNodesAux p n 0 m

/-- Outcome of `RowIsSolution`: the mutated problem, the "no row found" error,
or the nil-pointer panic on a row with no cells. -/
inductive RowSolResult where
  | ok : exactCoverProblem → RowSolResult
  | err : String → RowSolResult
  | panicked : GoPanic → RowSolResult
deriving DecidableEq

/-- `RowIsSolution`: look the row up by name (error if absent), cover every
column its cells touch — siblings of the entry cell first, the entry cell's
own column last — and push the row onto the working solution. If the row has
no cells, `header.first` is nil and the Go code crashes dereferencing it. -/
def RowIsSolution (p : exactCoverProblem) (name : String) : RowSolResult :=
  match p.rowsByName.lookup name with
  | none => .err ("No row found with name " ++ name)
  | some header =>
    match p.rowFirst.getD header none with
    | none => .panicked .nilPointerDereference
    | some first =>
      let s1 := coverRights p.links first (p.links.rightN first) p.links.size
      let s2 := cover s1 (s1.colHeadN first)
      .ok (pushRowToSolution { p with links := s2 } header)

/-- Build-then-solve glue used to state end-to-end properties: `none` when
construction fails. -/
def buildSolve (m : List (List Bool)) (n : List String) : Option (List (List String)) :=
  match NewExactCoverProblem m n with
  | .ok p => some (Solve p)
  | _ => none

/-- Build, pre-select one row, then solve; `none` when either step fails. -/
def preSolve (m : List (List Bool)) (n : List String) (name : String) :
    Option (List (List String)) :=
  match NewExactCoverProblem m n with
  | .ok p =>
    match RowIsSolution p name with
    | .ok p1 => some (Solve p1)
    | _ => none
  | _ => none

/-- First example matrix from the test suite (6 rows, 7 columns). -/
def mat1 : List (List Bool) :=
  [[true, false, false, true, false, false, true],
   [true, false, false, true, false, false, false],
   [false, false, false, true, true, false, true],
   [false, false, true, false, true, true, false],
   [false, true, true, false, false, true, true],
   [false, true, false, false, false, false, true]]

/-- Row names of the first example. -/
def names1 : List String := ["A", "B", "C", "D", "E", "F"]

/-- Second example matrix from the test suite (5 rows, 4 columns). -/
def mat2 : List (List Bool) :=
  [[true, false, false, false],
   [true, true, true, false],
   [false, true, false, true],
   [false, false, true, true],
   [false, false, false, true]]

/-- Row names of the second example. -/
def names2 : List String := ["A", "B", "C", "D", "E"]

end Gox

namespace Gox

/-! ## Concrete instances used by witnesses -/

/-- A placeholder problem, used only as the fallback branch of `theProblem`. -/
def emptyProblem : exactCoverProblem :=
  { links := emptyLinks 0 0, rowNames := [], rowFirst := [], rowsByName := [],
    solutionRows := [], solutions := [] }

/-- Extract the problem from a successful build. -/
def theProblem (r : BuildResult) : exactCoverProblem :=
  match r with
  | .ok p => p
  | _ => emptyProblem

/-- The problem built from the second example. -/
def exampleProblem2 : exactCoverProblem := theProblem (NewExactCoverProblem mat2 names2)

/-! ## Claim C2: the two end-to-end examples -/

/-- Claim C2: for the two fixed example inputs, `Solve` returns exactly one
solution each: the 6-row, 7-column matrix with rows A..F yields the single
solution B, D, F, and the 5-row, 4-column matrix with rows A..E yields the
single solution B, E. -/
theorem C2_end_to_end_examples :
    buildSolve mat1 names1 = some [["B", "D", "F"]] ∧
    buildSolve mat2 names2 = some [["B", "E"]] := by
  constructor
  · decide
  · decide

/-! ## Claim C8: unknown row name in `RowIsSolution`

In the Go source the lookup failure is detected and returned before any
mutation statement executes; in this pure embedding that is visible directly:
the error branch of `RowIsSolution` returns without threading the problem
state through any update, so the caller's problem value is untouched and
remains usable. -/

set_option maxRecDepth 1000000 in
/-- Claim C8: for every problem and every row name not present in its lookup
map, `RowIsSolution` returns the "No row found" error (and, the embedding
being pure and the error branch returning before any state update, the
problem is left entirely unchanged). -/
theorem C8_unknown_row_name_error (p : exactCoverProblem) (name : String)
    (h : p.rowsByName.lookup name = none) :
    RowIsSolution p name = .err ("No row found with name " ++ name) := by
  unfold RowIsSolution
  rw [h]

/-- Witness for C8 at a concrete problem and name. -/
theorem C8_witness :
    exampleProblem2.rowsByName.lookup "Z" = none ∧
    RowIsSolution exampleProblem2 "Z" = .err ("No row found with name Z") :=
  ⟨by decide, C8_unknown_row_name_error exampleProblem2 "Z" (by decide)⟩

/-! ## Claim C9: missing length validation for the name list -/

set_option maxRecDepth 1000000 in
/-- Counterexample to claim C9 as stated: a 3-row matrix passing the shape
checks with the 2-name list `["A", "A"]` (shorter than the row count) does
not reach the out-of-range index — the duplicate-name check fires first and
a validation error is returned. -/
theorem C9_counterexample :
    NewExactCoverProblem [[true], [true], [true]] ["A", "A"] =
      .err (.duplicateRowName "A") := by decide

end Gox

namespace Gox

/-! ## Small list helpers -/

theorem getD_set_self {α : Type} (l : List α) (i : Nat) (v d : α) (h : i < l.length) :
    (l.set i v).getD i d = v := by
  simp [List.getD, List.getElem?_set_self', h]

theorem getD_set_ne {α : Type} (l : List α) (i j : Nat) (v d : α) (h : i ≠ j) :
    (l.set i v).getD j d = l.getD j d := by
  simp [List.getD, List.getElem?_set_ne h]

theorem lookup_isSome_iff (l : List (String × Nat)) (a : String) :
    (l.lookup a).isSome ↔ a ∈ l.map Prod.fst := by
  induction l with
  | nil => simp [List.lookup]
  | cons kv t ih =>
    obtain ⟨k, v⟩ := kv
    by_cases hak : a = k
    · subst hak; simp [List.lookup]
    · have hf : (a == k) = false := beq_eq_false_iff_ne.mpr hak
      simp [List.lookup, hf, ih, hak]

theorem mem_of_lookup_eq_some {l : List (String × Nat)} {a : String} {b : Nat}
    (h : l.lookup a = some b) : (a, b) ∈ l := by
  induction l with
  | nil => simp [List.lookup] at h
  | cons kv t ih =>
    obtain ⟨k, v⟩ := kv
    by_cases hak : a = k
    · subst hak
      simp [List.lookup] at h
      simp [h]
    · have hf : (a == k) = false := beq_eq_false_iff_ne.mpr hak
      simp [List.lookup, hf] at h
      exact List.mem_cons_of_mem _ (ih h)

theorem lookup_eq_some_of_mem {l : List (String × Nat)} {a : String} {b : Nat}
    (hnd : (l.map Prod.fst).Nodup) (hmem : (a, b) ∈ l) : l.lookup a = some b := by
  induction l with
  | nil => simp at hmem
  | cons kv t ih =>
    obtain ⟨k, v⟩ := kv
    simp only [List.map_cons, List.nodup_cons] at hnd
    rcases List.mem_cons.mp hmem with h | h
    · rw [show a = k from (Prod.mk.injEq .. ▸ h).1, show b = v from (Prod.mk.injEq .. ▸ h).2]
      simp [List.lookup]
    · have hak : a ≠ k := by
        rintro rfl
        exact hnd.1 (List.mem_map.mpr ⟨(a, b), h, rfl⟩)
      have hf : (a == k) = false := beq_eq_false_iff_ne.mpr hak
      simp [List.lookup, hf]
      exact ih hnd.2 h

theorem mem_zip_range' (seg : List String) :
    ∀ k i, i < seg.length → (seg.getD i "", k + i) ∈ seg.zip (List.range' k seg.length) := by
  induction seg with
  | nil => intro k i h; simp at h
  | cons x rest ih =>
    intro k i h
    match i with
    | 0 => simp [List.range'_succ, List.getD]
    | i+1 =>
      have hmem := ih (k+1) i (by simpa using h)
      simp only [List.length_cons, List.range'_succ, List.zip_cons_cons, List.getD_cons_succ]
      refine List.mem_cons_of_mem _ ?_
      have harith : k + 1 + i = k + (i + 1) := by omega
      rwa [harith] at hmem

/-! ## Step equations for the cell-creation loop -/

theorem addRowCellsAux_nil (p : exactCoverProblem) (i : Nat) (f : Option Nat) (c : Nat) :
    addRowCellsAux p i f c [] = p := rfl

theorem addRowCellsAux_cons_true (p : exactCoverProblem) (i : Nat) (f : Option Nat)
    (c : Nat) (rest : List Bool) :
    addRowCellsAux p i f c (true :: rest) =
      addRowCellsAux (addOneCell p i f c) i (some (f.getD p.links.size)) (c + 1) rest := rfl

theorem addRowCellsAux_cons_false (p : exactCoverProblem) (i : Nat) (f : Option Nat)
    (c : Nat) (rest : List Bool) :
    addRowCellsAux p i f c (false :: rest) = addRowCellsAux p i f (c + 1) rest := rfl

theorem addOneCell_rowNames (p : exactCoverProblem) (i : Nat) (f : Option Nat) (c : Nat) :
    (addOneCell p i f c).rowNames = p.rowNames := by
  simp only [addOneCell]
  split <;> rfl

theorem addOneCell_rowsByName (p : exactCoverProblem) (i : Nat) (f : Option Nat) (c : Nat) :
    (addOneCell p i f c).rowsByName = p.rowsByName := by
  simp only [addOneCell]
  split <;> rfl

theorem addOneCell_solutionRows (p : exactCoverProblem) (i : Nat) (f : Option Nat) (c : Nat) :
    (addOneCell p i f c).solutionRows = p.solutionRows := by
  simp only [addOneCell]
  split <;> rfl

theorem addOneCell_solutions (p : exactCoverProblem) (i : Nat) (f : Option Nat) (c : Nat) :
    (addOneCell p i f c).solutions = p.solutions := by
  simp only [addOneCell]
  split <;> rfl

theorem addOneCell_rowFirst (p : exactCoverProblem) (i : Nat) (f : Option Nat) (c : Nat) :
    (addOneCell p i f c).rowFirst =
      if (p.rowFirst.getD i none).isNone then p.rowFirst.set i (some p.links.size)
      else p.rowFirst := by
  simp only [addOneCell]
  split <;> rfl

/-! ## Bookkeeping facts about `addRowCellsAux` (fields other than `links`) -/

theorem addRowCellsAux_rowNames (cells : List Bool) :
    ∀ p i f c, (addRowCellsAux p i f c cells).rowNames = p.rowNames := by
  induction cells with
  | nil => intro p i f c; rfl
  | cons b rest ih =>
    intro p i f c
    cases b
    · rw [addRowCellsAux_cons_false, ih]
    · rw [addRowCellsAux_cons_true, ih, addOneCell_rowNames]

theorem addRowCellsAux_rowsByName (cells : List Bool) :
    ∀ p i f c, (addRowCellsAux p i f c cells).rowsByName = p.rowsByName := by
  induction cells with
  | nil => intro p i f c; rfl
  | cons b rest ih =>
    intro p i f c
    cases b
    · rw [addRowCellsAux_cons_false, ih]
    · rw [addRowCellsAux_cons_true, ih, addOneCell_rowsByName]

theorem addRowCellsAux_solutionRows (cells : List Bool) :
    ∀ p i f c, (addRowCellsAux p i f c cells).solutionRows = p.solutionRows := by
  induction cells with
  | nil => intro p i f c; rfl
  | cons b rest ih =>
    intro p i f c
    cases b
    · rw [addRowCellsAux_cons_false, ih]
    · rw [addRowCellsAux_cons_true, ih, addOneCell_solutionRows]

theorem addRowCellsAux_solutions (cells : List Bool) :
    ∀ p i f c, (addRowCellsAux p i f c cells).solutions = p.solutions := by
  induction cells with
  | nil => intro p i f c; rfl
  | cons b rest ih =>
    intro p i f c
    cases b
    · rw [addRowCellsAux_cons_false, ih]
    · rw [addRowCellsAux_cons_true, ih, addOneCell_solutions]

theorem addRowCellsAux_rowFirst_length (cells : List Bool) :
    ∀ p i f c, (addRowCellsAux p i f c cells).rowFirst.length = p.rowFirst.length := by
  induction cells with
  | nil => intro p i f c; rfl
  | cons b rest ih =>
    intro p i f c
    cases b
    · rw [addRowCellsAux_cons_false, ih]
    · rw [addRowCellsAux_cons_true, ih, addOneCell_rowFirst]
      split
      · simp
      · rfl

theorem addRowCellsAux_rowFirst_other (cells : List Bool) :
    ∀ p i f c j, j ≠ i →
      (addRowCellsAux p i f c cells).rowFirst.getD j none = p.rowFirst.getD j none := by
  induction cells with
  | nil => intro p i f c j _; rfl
  | cons b rest ih =>
    intro p i f c j hj
    cases b
    · rw [addRowCellsAux_cons_false, ih _ _ _ _ _ hj]
    · rw [addRowCellsAux_cons_true, ih _ _ _ _ _ hj, addOneCell_rowFirst]
      split
      · exact getD_set_ne _ _ _ _ _ (fun h => hj h.symm)
      · rfl

theorem addRowCellsAux_rowFirst_some (cells : List Bool) :
    ∀ p i f c v, p.rowFirst.getD i none = some v →
      (addRowCellsAux p i f c cells).rowFirst.getD i none = some v := by
  induction cells with
  | nil => intro p i f c v h; exact h
  | cons b rest ih =>
    intro p i f c v h
    cases b
    · rw [addRowCellsAux_cons_false]
      exact ih _ _ _ _ _ h
    · rw [addRowCellsAux_cons_true]
      refine ih _ _ _ _ _ ?_
      rw [addOneCell_rowFirst]
      split
      · next hcond => rw [h] at hcond; simp at hcond
      · exact h

theorem addRowCellsAux_rowFirst_none (cells : List Bool) :
    ∀ p i f c, i < p.rowFirst.length → p.rowFirst.getD i none = none →
      ((addRowCellsAux p i f c cells).rowFirst.getD i none = none ↔
        ∀ b ∈ cells, b = false) := by
  induction cells with
  | nil => intro p i f c _ h; simpa using h
  | cons b rest ih =>
    intro p i f c hlen h
    cases b
    · rw [addRowCellsAux_cons_false, ih p i f (c+1) hlen h]
      constructor
      · intro hall b hb
        rcases List.mem_cons.mp hb with rfl | hb
        · rfl
        · exact hall b hb
      · intro hall b hb
        exact hall b (List.mem_cons_of_mem _ hb)
    · rw [addRowCellsAux_cons_true]
      have hset : (addOneCell p i f c).rowFirst.getD i none = some p.links.size := by
        rw [addOneCell_rowFirst, if_pos (by rw [h]; rfl)]
        exact getD_set_self _ _ _ _ hlen
      rw [addRowCellsAux_rowFirst_some rest _ _ _ _ _ hset]
      simp

end Gox

namespace Gox

/-! ## More list helpers -/

theorem getD_append_left {α : Type} (a b : List α) (j : Nat) (d : α) (h : j < a.length) :
    (a ++ b).getD j d = a.getD j d := by
  simp [List.getD, List.getElem?_append_left h]

theorem getD_append_right {α : Type} (a b : List α) (j : Nat) (d : α) (h : a.length ≤ j) :
    (a ++ b).getD j d = b.getD (j - a.length) d := by
  simp [List.getD, List.getElem?_append_right h]

/-! ## Step equations for the row loop of `createNodes` -/

theorem createNodesAux_nil (p : exactCoverProblem) (n : List String) (k : Nat) :
    createNodesAux p n k [] = .ok p := rfl

theorem createNodesAux_cons_outOfRange {n : List String} {k : Nat}
    (p : exactCoverProblem) (row : List Bool) (rest : List (List Bool))
    (h : n.get? k = none) :
    createNodesAux p n k (row :: rest) = .panicked .indexOutOfRange := by
  simp only [createNodesAux, h]

theorem createNodesAux_cons_dup {n : List String} {k : Nat} {name : String}
    (p : exactCoverProblem) (row : List Bool) (rest : List (List Bool))
    (h : n.get? k = some name) (hdup : (p.rowsByName.lookup name).isSome = true) :
    createNodesAux p n k (row :: rest) = .err (.duplicateRowName name) := by
  simp only [createNodesAux, h, hdup, if_true]

theorem createNodesAux_cons_fresh {n : List String} {k : Nat} {name : String}
    (p : exactCoverProblem) (row : List Bool) (rest : List (List Bool))
    (h : n.get? k = some name) (hfresh : p.rowsByName.lookup name = none) :
    createNodesAux p n k (row :: rest) =
      createNodesAux
        (addRowCellsAux
          { p with rowsByName := p.rowsByName ++ [(name, k)],
                   rowNames := p.rowNames ++ [name],
                   rowFirst := p.rowFirst ++ [none] } k none 0 row)
        n (k + 1) rest := by
  simp only [createNodesAux, h, hfresh, Option.isSome_none, Bool.false_eq_true, if_false]

/-! ## Outcome of the row loop -/

theorem createNodesAux_ok_spec (rows : List (List Bool)) :
    ∀ p n k, k + rows.length ≤ n.length →
      p.rowFirst.length = k →
      ((p.rowsByName.map Prod.fst) ++ (n.drop k).take rows.length).Nodup →
      ∃ p', createNodesAux p n k rows = .ok p' ∧
        p'.rowNames = p.rowNames ++ (n.drop k).take rows.length ∧
        p'.rowsByName =
          p.rowsByName ++ ((n.drop k).take rows.length).zip (List.range' k rows.length) ∧
        p'.solutionRows = p.solutionRows ∧
        p'.solutions = p.solutions ∧
        p'.rowFirst.length = k + rows.length ∧
        (∀ j, j < k → p'.rowFirst.getD j none = p.rowFirst.getD j none) ∧
        (∀ j, j < rows.length →
          (p'.rowFirst.getD (k + j) none = none ↔ ∀ b ∈ rows.getD j [], b = false)) := by
  induction rows with
  | nil =>
    intro p n k _ hlen _
    refine ⟨p, rfl, by simp, by simp, rfl, rfl, by simpa using hlen, fun j _ => rfl,
      fun j hj => by simp at hj⟩
  | cons row rest ih =>
    intro p n k hk hlen hnd
    have hklt : k < n.length := by simp at hk; omega
    have hget : n.get? k = some (n.getD k "") := by
      rw [List.get?_eq_getElem?]
      simp [List.getD, List.getElem?_eq_getElem hklt]
    have hseg : (n.drop k).take (row :: rest).length =
        n.getD k "" :: (n.drop (k+1)).take rest.length := by
      rw [List.drop_eq_getElem_cons hklt, List.length_cons, List.take_succ_cons]
      congr 1
      simp [List.getD, List.getElem?_eq_getElem hklt]
    rw [hseg] at hnd
    have hfreshmem : n.getD k "" ∉ p.rowsByName.map Prod.fst := by
      rw [List.nodup_append] at hnd
      intro hmem
      exact hnd.2.2 hmem (List.mem_cons_self ..)
    have hfresh : p.rowsByName.lookup (n.getD k "") = none := by
      rcases ho : p.rowsByName.lookup (n.getD k "") with _ | v
      · rfl
      · exact absurd ((lookup_isSome_iff ..).mp (by rw [ho]; rfl)) hfreshmem
    rw [createNodesAux_cons_fresh _ _ _ hget hfresh]
    set p1 : exactCoverProblem :=
      { p with rowsByName := p.rowsByName ++ [(n.getD k "", k)],
               rowNames := p.rowNames ++ [n.getD k ""],
               rowFirst := p.rowFirst ++ [none] } with hp1
    set p2 := addRowCellsAux p1 k none 0 row with hp2
    have h2names : p2.rowNames = p.rowNames ++ [n.getD k ""] := by
      rw [hp2, addRowCellsAux_rowNames]
    have h2map : p2.rowsByName = p.rowsByName ++ [(n.getD k "", k)] := by
      rw [hp2, addRowCellsAux_rowsByName]
    have h2solr : p2.solutionRows = p.solutionRows := by
      rw [hp2, addRowCellsAux_solutionRows]
    have h2sols : p2.solutions = p.solutions := by
      rw [hp2, addRowCellsAux_solutions]
    have h2flen : p2.rowFirst.length = k + 1 := by
      rw [hp2, addRowCellsAux_rowFirst_length]
      simp [hp1, hlen]
    have hihnd : ((p2.rowsByName.map Prod.fst) ++ (n.drop (k+1)).take rest.length).Nodup := by
      rw [h2map, List.map_append, List.append_assoc]
      simpa using hnd
    obtain ⟨p', hrun, hnames, hmap, hsolr, hsols, hflen, hfpres, hfnew⟩ :=
      ih p2 n (k+1) (by simp at hk ⊢; omega) h2flen hihnd
    refine ⟨p', hrun, ?_, ?_, ?_, ?_, ?_, ?_, ?_⟩
    · rw [hnames, h2names, hseg]
      simp
    · rw [hmap, h2map, hseg, List.length_cons, List.range'_succ, List.zip_cons_cons]
      simp
    · rw [hsolr, h2solr]
    · rw [hsols, h2sols]
    · rw [hflen]
      simp; omega
    · intro j hj
      rw [hfpres j (by omega)]
      have hne : j ≠ k := by omega
      rw [hp2, addRowCellsAux_rowFirst_other _ _ _ _ _ _ hne]
      exact getD_append_left _ _ _ _ (by omega)
    · intro j hj
      match j with
      | 0 =>
        have h0 : p'.rowFirst.getD (k + 0) none = p2.rowFirst.getD k none := by
          simpa using hfpres k (by omega)
        rw [h0]
        have hin : k < p1.rowFirst.length := by simp [hp1, hlen]
        have hnone : p1.rowFirst.getD k none = none := by
          rw [hp1]
          show (p.rowFirst ++ [none]).getD k none = none
          rw [getD_append_right _ _ _ _ (by omega)]
          simp [hlen]
        rw [hp2, addRowCellsAux_rowFirst_none row p1 k none 0 hin hnone]
        simp
      | j+1 =>
        have harith : k + (j + 1) = (k + 1) + j := by omega
        rw [harith, hfnew j (by simpa using hj)]
        simp

theorem createNodesAux_panic_spec (rows : List (List Bool)) :
    ∀ p n k, k ≤ n.length → n.length < k + rows.length →
      ((p.rowsByName.map Prod.fst) ++ (n.drop k).take rows.length).Nodup →
      createNodesAux p n k rows = .panicked .indexOutOfRange := by
  induction rows with
  | nil =>
    intro p n k h1 h2 _
    exact absurd h1 (by simp at h2; omega)
  | cons row rest ih =>
    intro p n k h1 h2 hnd
    by_cases hklt : k < n.length
    · have hget : n.get? k = some (n.getD k "") := by
        rw [List.get?_eq_getElem?]
        simp [List.getD, List.getElem?_eq_getElem hklt]
      have hseg : (n.drop k).take (row :: rest).length =
          n.getD k "" :: (n.drop (k+1)).take rest.length := by
        rw [List.drop_eq_getElem_cons hklt, List.length_cons, List.take_succ_cons]
        congr 1
        simp [List.getD, List.getElem?_eq_getElem hklt]
      rw [hseg] at hnd
      have hfreshmem : n.getD k "" ∉ p.rowsByName.map Prod.fst := by
        rw [List.nodup_append] at hnd
        intro hmem
        exact hnd.2.2 hmem (List.mem_cons_self ..)
      have hfresh : p.rowsByName.lookup (n.getD k "") = none := by
        rcases ho : p.rowsByName.lookup (n.getD k "") with _ | v
        · rfl
        · exact absurd ((lookup_isSome_iff ..).mp (by rw [ho]; rfl)) hfreshmem
      rw [createNodesAux_cons_fresh _ _ _ hget hfresh]
      refine ih _ n (k+1) (by omega) (by simp at h2 ⊢; omega) ?_
      rw [addRowCellsAux_rowsByName, List.map_append, List.append_assoc]
      simpa using hnd
    · exact createNodesAux_cons_outOfRange _ _ _
        (by rw [List.get?_eq_getElem?]; exact List.getElem?_eq_none (by omega))

theorem createNodesAux_dup_spec (rows : List (List Bool)) :
    ∀ p n k, (p.rowsByName.map Prod.fst).Nodup →
      ¬ ((p.rowsByName.map Prod.fst) ++ (n.drop k).take rows.length).Nodup →
      ∃ nm, createNodesAux p n k rows = .err (.duplicateRowName nm) := by
  induction rows with
  | nil =>
    intro p n k hk hnd
    exact absurd (by simpa using hk) hnd
  | cons row rest ih =>
    intro p n k hk hnd
    by_cases hklt : k < n.length
    · have hget : n.get? k = some (n.getD k "") := by
        rw [List.get?_eq_getElem?]
        simp [List.getD, List.getElem?_eq_getElem hklt]
      have hseg : (n.drop k).take (row :: rest).length =
          n.getD k "" :: (n.drop (k+1)).take rest.length := by
        rw [List.drop_eq_getElem_cons hklt, List.length_cons, List.take_succ_cons]
        congr 1
        simp [List.getD, List.getElem?_eq_getElem hklt]
      rw [hseg] at hnd
      by_cases hmem : n.getD k "" ∈ p.rowsByName.map Prod.fst
      · exact ⟨n.getD k "", createNodesAux_cons_dup _ _ _ hget ((lookup_isSome_iff ..).mpr hmem)⟩
      · have hfresh : p.rowsByName.lookup (n.getD k "") = none := by
          rcases ho : p.rowsByName.lookup (n.getD k "") with _ | v
          · rfl
          · exact absurd ((lookup_isSome_iff ..).mp (by rw [ho]; rfl)) hmem
        rw [createNodesAux_cons_fresh _ _ _ hget hfresh]
        refine ih _ n (k+1) ?_ ?_
        · rw [addRowCellsAux_rowsByName, List.map_append]
          refine List.Nodup.append hk (List.nodup_singleton _) ?_
          simp only [List.map_cons, List.map_nil, List.disjoint_singleton]
          exact hmem
        · rw [addRowCellsAux_rowsByName, List.map_append, List.append_assoc]
          simpa using hnd
    · have hdrop : n.drop k = [] := List.drop_eq_nil_of_le (by omega)
      rw [hdrop] at hnd
      simp at hnd
      exact absurd hk hnd

/-! ## `checkInputs` -/

theorem badRow_eq_none (rows : List (List Bool)) :
    ∀ rowLen i, badRow rowLen rows i = none ↔ ∀ row ∈ rows, row.length = rowLen := by
  induction rows with
  | nil => intro rowLen i; simp [badRow]
  | cons row rest ih =>
    intro rowLen i
    by_cases h : row.length = rowLen
    · simp [badRow, h, ih]
    · simp [badRow, h]

theorem badRow_shape (rows : List (List Bool)) :
    ∀ rowLen i e, badRow rowLen rows i = some e →
      ∃ a j b, e = .inconsistentRowLength a j b := by
  induction rows with
  | nil => intro rowLen i e h; simp [badRow] at h
  | cons row rest ih =>
    intro rowLen i e h
    by_cases hl : row.length = rowLen
    · rw [badRow, if_neg (by simpa using hl)] at h
      exact ih _ _ _ h
    · rw [badRow, if_pos (by simpa using hl)] at h
      exact ⟨rowLen, i, row.length, (Option.some.injEq .. ▸ h).symm⟩

theorem checkInputs_none_iff (m : List (List Bool)) (n : List String) :
    checkInputs m n = none ↔
      1 < m.length ∧ ∀ row ∈ m, row.length = (m.headD []).length := by
  by_cases h1 : m.length ≤ 1
  · simp [checkInputs, h1]
  · simp [checkInputs, h1, badRow_eq_none]
    omega

theorem checkInputs_le_one {m : List (List Bool)} {n : List String} (h : m.length ≤ 1) :
    checkInputs m n = some .numRowsLE1 := by
  simp [checkInputs, h]

theorem checkInputs_ragged {m : List (List Bool)} {n : List String} (h1 : 1 < m.length)
    (h2 : ¬ ∀ row ∈ m, row.length = (m.headD []).length) :
    ∃ a j b, checkInputs m n = some (.inconsistentRowLength a j b) := by
  have hne : ¬ m.length ≤ 1 := by omega
  rcases ho : badRow (m.headD []).length m 0 with _ | e
  · exact absurd ((badRow_eq_none ..).mp ho) h2
  · obtain ⟨a, j, b, rfl⟩ := badRow_shape _ _ _ _ ho
    refine ⟨a, j, b, ?_⟩
    unfold checkInputs
    rw [if_neg hne, ho]

/-! ## `NewExactCoverProblem` -/

theorem NewExactCoverProblem_check_some {m : List (List Bool)} {n : List String}
    {e : GoError} (h : checkInputs m n = some e) :
    NewExactCoverProblem m n = .err e := by
  simp only [NewExactCoverProblem, h]

/-- The problem state entering `createNodes`: root and column headers built,
no rows yet. -/
def initialProblem (m : List (List Bool)) : exactCoverProblem :=
  { links := initColHeaders (allocateColHeaders (emptyLinks m.length (m.headD []).length)),
    rowNames := [], rowFirst := [], rowsByName := [], solutionRows := [], solutions := [] }

theorem NewExactCoverProblem_check_none {m : List (List Bool)} {n : List String}
    (h : checkInputs m n = none) :
    NewExactCoverProblem m n = createNodesAux (initialProblem m) n 0 m := by
  simp only [NewExactCoverProblem, h]
  rfl

/-- Everything a successful construction pins down about the bookkeeping
fields of the resulting problem. -/
theorem build_ok_spec {m : List (List Bool)} {n : List String} {p : exactCoverProblem}
    (hb : NewExactCoverProblem m n = .ok p) :
    1 < m.length ∧ (∀ row ∈ m, row.length = (m.headD []).length) ∧
    m.length ≤ n.length ∧ (n.take m.length).Nodup ∧
    p.rowNames = n.take m.length ∧
    p.rowsByName = (n.take m.length).zip (List.range' 0 m.length) ∧
    p.solutionRows = [] ∧ p.solutions = [] ∧
    p.rowFirst.length = m.length ∧
    (∀ j, j < m.length → (p.rowFirst.getD j none = none ↔ ∀ b ∈ m.getD j [], b = false)) := by
  rcases hc : checkInputs m n with _ | e
  · have hshape := (checkInputs_none_iff m n).mp hc
    rw [NewExactCoverProblem_check_none hc] at hb
    by_cases hnd : ((((initialProblem m).rowsByName.map Prod.fst)) ++
        (n.drop 0).take m.length).Nodup
    · by_cases hlen : m.length ≤ n.length
      · obtain ⟨p', hrun, hnames, hmap, hsolr, hsols, hflen, _, hfnew⟩ :=
          createNodesAux_ok_spec m (initialProblem m) n 0 (by omega) rfl hnd
        rw [hrun] at hb
        obtain rfl : p' = p := BuildResult.ok.inj hb
        refine ⟨hshape.1, hshape.2, hlen, ?_, ?_, ?_, ?_, ?_, ?_, ?_⟩
        · simpa [initialProblem] using hnd
        · simpa [initialProblem] using hnames
        · simpa [initialProblem] using hmap
        · simpa [initialProblem] using hsolr
        · simpa [initialProblem] using hsols
        · simpa [initialProblem] using hflen
        · intro j hj
          simpa using hfnew j hj
      · rw [createNodesAux_panic_spec m (initialProblem m) n 0 (by omega) (by omega) hnd] at hb
        exact absurd hb (by simp)
    · obtain ⟨nm, hrun⟩ := createNodesAux_dup_spec m (initialProblem m) n 0
        (by simp [initialProblem]) hnd
      rw [hrun] at hb
      exact absurd hb (by simp)
  · rw [NewExactCoverProblem_check_some hc] at hb
    exact absurd hb (by simp)

end Gox

namespace Gox

/-! ## Claim C4: construction validation -/

/-- Claim C4: assuming the row-name list has the same length as the matrix,
`NewExactCoverProblem` returns a validation error exactly when the matrix has
at most one row, or two rows differ in length, or two rows share a name; each
of the three conditions yields its own distinct error constructor, and on
error no problem value is produced (the `err` branch of `BuildResult` carries
only the error). -/
theorem C4_validation_iff (m : List (List Bool)) (n : List String)
    (hlen : n.length = m.length) :
    ((∃ e, NewExactCoverProblem m n = .err e) ↔
      (m.length ≤ 1 ∨ (∃ row ∈ m, row.length ≠ (m.headD []).length) ∨ ¬ n.Nodup)) ∧
    (m.length ≤ 1 → NewExactCoverProblem m n = .err .numRowsLE1) ∧
    (1 < m.length → (∃ row ∈ m, row.length ≠ (m.headD []).length) →
      ∃ a i b, NewExactCoverProblem m n = .err (.inconsistentRowLength a i b)) ∧
    (1 < m.length → (∀ row ∈ m, row.length = (m.headD []).length) → ¬ n.Nodup →
      ∃ nm, NewExactCoverProblem m n = .err (.duplicateRowName nm)) ∧
    (1 < m.length → (∀ row ∈ m, row.length = (m.headD []).length) → n.Nodup →
      ∃ p, NewExactCoverProblem m n = .ok p) := by
  have htake : n.take m.length = n := by
    rw [← hlen, List.take_length]
  by_cases h1 : m.length ≤ 1
  · refine ⟨?_, fun _ => NewExactCoverProblem_check_some (checkInputs_le_one h1), ?_, ?_, ?_⟩
    · constructor
      · intro _; exact Or.inl h1
      · intro _; exact ⟨.numRowsLE1, NewExactCoverProblem_check_some (checkInputs_le_one h1)⟩
    · intro h; omega
    · intro h; omega
    · intro h; omega
  · by_cases h2 : ∀ row ∈ m, row.length = (m.headD []).length
    · have hc : checkInputs m n = none := (checkInputs_none_iff m n).mpr ⟨by omega, h2⟩
      by_cases h3 : n.Nodup
      · obtain ⟨p', hrun, _⟩ := createNodesAux_ok_spec m (initialProblem m) n 0
          (by omega) rfl (by simp [initialProblem, htake, h3])
        have hok : NewExactCoverProblem m n = .ok p' := by
          rw [NewExactCoverProblem_check_none hc, hrun]
        refine ⟨?_, fun h => by omega, ?_, ?_, ?_⟩
        · constructor
          · rintro ⟨e, he⟩
            rw [hok] at he
            exact absurd he (by simp)
          · rintro (h | ⟨row, hr, hne⟩ | h)
            · omega
            · exact absurd (h2 row hr) hne
            · exact absurd h3 h
        · rintro _ ⟨row, hr, hne⟩
          exact absurd (h2 row hr) hne
        · intro _ _ h
          exact absurd h3 h
        · intro _ _ _
          exact ⟨p', hok⟩
      · obtain ⟨nm, hrun⟩ := createNodesAux_dup_spec m (initialProblem m) n 0
          (by simp [initialProblem]) (by simp [initialProblem, htake, h3])
        have herr : NewExactCoverProblem m n = .err (.duplicateRowName nm) := by
          rw [NewExactCoverProblem_check_none hc, hrun]
        refine ⟨?_, fun h => by omega, ?_, ?_, ?_⟩
        · exact ⟨fun _ => Or.inr (Or.inr h3), fun _ => ⟨_, herr⟩⟩
        · rintro _ ⟨row, hr, hne⟩
          exact absurd (h2 row hr) hne
        · intro _ _ _
          exact ⟨nm, herr⟩
        · intro _ _ h3'
          exact absurd h3' h3
    · obtain ⟨a, j, b, hc⟩ := checkInputs_ragged (by omega) h2
      have herr := NewExactCoverProblem_check_some hc
      push_neg at h2
      obtain ⟨row, hrmem, hrne⟩ := h2
      refine ⟨?_, fun h => by omega, ?_, ?_, ?_⟩
      · exact ⟨fun _ => Or.inr (Or.inl ⟨row, hrmem, hrne⟩), fun _ => ⟨_, herr⟩⟩
      · intro _ _
        exact ⟨a, j, b, herr⟩
      · intro _ hall _
        exact absurd (hall row hrmem) hrne
      · intro _ hall _
        exact absurd (hall row hrmem) hrne

/-- Witness for C4 at concrete inputs: the valid second example builds, and
a one-row matrix is rejected with the row-count error. -/
theorem C4_witness :
    (names2.length = mat2.length ∧ ∃ p, NewExactCoverProblem mat2 names2 = .ok p) ∧
    ((["A"] : List String).length = ([[true]] : List (List Bool)).length ∧
      NewExactCoverProblem [[true]] ["A"] = .err .numRowsLE1) := by
  constructor
  · refine ⟨by decide, ?_⟩
    exact (C4_validation_iff mat2 names2 (by decide)).2.2.2.2 (by decide) (by decide) (by decide)
  · refine ⟨by decide, ?_⟩
    exact (C4_validation_iff [[true]] ["A"] (by decide)).2.1 (by decide)

/-! ## Claim C9 (amended): missing length validation panics -/

/-- Claim C9, amended: construction never checks that the name list is as
long as the matrix; whenever the matrix passes the shape checks and the name
list is shorter than the row count, the build either hits the out-of-range
index `n[rowIndex]` (a runtime panic) — which is what happens for every list
of distinct names — or, if a duplicate occurs among the names present, the
duplicate-name validation error fires first.  This theorem is the
distinct-names case. -/
theorem C9_short_names_panic (m : List (List Bool)) (n : List String)
    (h1 : 1 < m.length) (h2 : ∀ row ∈ m, row.length = (m.headD []).length)
    (hshort : n.length < m.length) (hnd : n.Nodup) :
    NewExactCoverProblem m n = .panicked .indexOutOfRange := by
  have hc : checkInputs m n = none := (checkInputs_none_iff m n).mpr ⟨h1, h2⟩
  rw [NewExactCoverProblem_check_none hc]
  refine createNodesAux_panic_spec m (initialProblem m) n 0 (by omega) (by omega) ?_
  have htake : n.take m.length = n := List.take_of_length_le (by omega)
  simp [initialProblem, htake, hnd]

/-- Witness for C9's amended theorem at a concrete input. -/
theorem C9_witness :
    1 < ([[true], [true], [true]] : List (List Bool)).length ∧
    (∀ row ∈ ([[true], [true], [true]] : List (List Bool)),
      row.length = (([[true], [true], [true]] : List (List Bool)).headD []).length) ∧
    (["A", "B"] : List String).length < ([[true], [true], [true]] : List (List Bool)).length ∧
    (["A", "B"] : List String).Nodup ∧
    NewExactCoverProblem [[true], [true], [true]] ["A", "B"] = .panicked .indexOutOfRange := by
  refine ⟨by decide, by decide, by decide, by decide, ?_⟩
  exact C9_short_names_panic _ _ (by decide) (by decide) (by decide) (by decide)

/-! ## Claim C10: all-false row makes `RowIsSolution` crash -/

/-- Claim C10: in a successfully built problem, a row whose input cells are
all false has no entry cell (`first` is nil), and `RowIsSolution` on that
row's name dereferences the nil pointer instead of returning an error. -/
theorem C10_all_false_row_panics (m : List (List Bool)) (n : List String)
    (p : exactCoverProblem) (i : Nat) (row : List Bool) (name : String)
    (hb : NewExactCoverProblem m n = .ok p)
    (hrow : m.get? i = some row) (hall : ∀ b ∈ row, b = false)
    (hname : n.get? i = some name) :
    RowIsSolution p name = .panicked .nilPointerDereference := by
  obtain ⟨h1, h2, hmn, hndtake, hnames, hmap, hsolr, hsols, hflen, hfnew⟩ := build_ok_spec hb
  have hi : i < m.length := by
    rw [List.get?_eq_getElem?] at hrow
    exact (List.getElem?_eq_some_iff.mp hrow).1
  have hrowD : m.getD i [] = row := by
    rw [List.get?_eq_getElem?] at hrow
    simp [List.getD, hrow]
  have hnameD : (n.take m.length).getD i "" = name := by
    rw [List.get?_eq_getElem?] at hname
    have : (n.take m.length)[i]? = n[i]? := by
      rw [List.getElem?_take]
      simp [hi]
    simp [List.getD, this, hname]
  have hkeys : ((n.take m.length).zip (List.range' 0 m.length)).map Prod.fst = n.take m.length := by
    refine List.map_fst_zip _ _ ?_
    simp only [List.length_take, List.length_range']
    omega
  have hmem : (name, i) ∈ p.rowsByName := by
    rw [hmap]
    have := mem_zip_range' (n.take m.length) 0 i (by simp only [List.length_take]; omega)
    rw [hnameD] at this
    have hlenzip : (n.take m.length).length = m.length := by simp only [List.length_take]; omega
    rw [hlenzip] at this
    simpa using this
  have hlookup : p.rowsByName.lookup name = some i := by
    refine lookup_eq_some_of_mem ?_ hmem
    rw [hmap, hkeys]
    exact hndtake
  have hfirst : p.rowFirst.getD i none = none := by
    rw [hfnew i hi, hrowD]
    exact hall
  unfold RowIsSolution
  rw [hlookup]
  simp only [hfirst]

/-- Witness for C10 at a concrete problem: row B of `[[true], [false]]` is
all-false and pre-selecting it crashes. -/
theorem C10_witness :
    NewExactCoverProblem [[true], [false]] ["A", "B"] =
      .ok (theProblem (NewExactCoverProblem [[true], [false]] ["A", "B"])) ∧
    ([[true], [false]] : List (List Bool)).get? 1 = some [false] ∧
    (∀ b ∈ ([false] : List Bool), b = false) ∧
    (["A", "B"] : List String).get? 1 = some "B" ∧
    RowIsSolution (theProblem (NewExactCoverProblem [[true], [false]] ["A", "B"])) "B" =
      .panicked .nilPointerDereference := by
  refine ⟨by decide, by decide, by decide, by decide, ?_⟩
  exact C10_all_false_row_panics [[true], [false]] ["A", "B"]
    (theProblem (NewExactCoverProblem [[true], [false]] ["A", "B"])) 1 [false] "B"
    (by decide) (by decide) (by decide) (by decide)

end Gox

namespace Gox

/-! ## Ring traversal as an observation -/

/-- Fuel-bounded walk along a pointer field, collecting the nodes visited
before coming back to `stop`; `none` if the fuel runs out first. -/
def ringWalk (next : Nat → Nat) (stop j : Nat) : Nat → Option (List Nat)
  | 0 => none
  | fuel+1 =>
    if j = stop then some []
    else (ringWalk next stop (next j) fuel).map (j :: ·)

/-- The traversal of the root ring, rightwards from `root.right`. -/
def rootRing (s : matrixLinks) : Option (List Nat) :=
  ringWalk s.rightN rootNode (s.rightN rootNode) (s.size + 1)

/-- The fold computed by the `nextCol` loop. -/
def pickMin (cnt : Nat → Int) (ret : Nat) (cs : List Nat) : Nat :=
  cs.foldl (fun r x => if cnt x < cnt r then x else r) ret

theorem pickMin_nil (cnt : Nat → Int) (ret : Nat) : pickMin cnt ret [] = ret := rfl

theorem pickMin_cons (cnt : Nat → Int) (ret x : Nat) (cs : List Nat) :
    pickMin cnt ret (x :: cs) = pickMin cnt (if cnt x < cnt ret then x else ret) cs := rfl

theorem nextColLoop_eq_pickMin (s : matrixLinks) :
    ∀ fuel j ret cs, ringWalk s.rightN rootNode j fuel = some cs →
      nextColLoop s j ret fuel = pickMin s.colCountN ret cs := by
  intro fuel
  induction fuel with
  | zero => intro j ret cs h; simp [ringWalk] at h
  | succ fuel ih =>
    intro j ret cs h
    by_cases hj : j = rootNode
    · rw [ringWalk, if_pos hj] at h
      obtain rfl : ([] : List Nat) = cs := Option.some.inj h
      rw [nextColLoop, if_pos hj, pickMin_nil]
    · rw [ringWalk, if_neg hj] at h
      rcases hw : ringWalk s.rightN rootNode (s.rightN j) fuel with _ | cs'
      · rw [hw] at h; simp at h
      · rw [hw] at h
        obtain rfl : j :: cs' = cs := by simpa using h
        rw [nextColLoop, if_neg hj, pickMin_cons]
        exact ih (s.rightN j) _ cs' hw

theorem pickMin_first_min (cnt : Nat → Int) (cs : List Nat) :
    ∀ ret, ∃ pre post,
      ret :: cs = pre ++ pickMin cnt ret cs :: post ∧
      (∀ y ∈ pre, cnt (pickMin cnt ret cs) < cnt y) ∧
      (∀ y, y ∈ ret :: cs → cnt (pickMin cnt ret cs) ≤ cnt y) := by
  induction cs with
  | nil =>
    intro ret
    refine ⟨[], [], by simp [pickMin_nil], by simp, ?_⟩
    intro y hy
    rw [pickMin_nil]
    rcases List.mem_cons.mp hy with rfl | hy
    · exact le_refl _
    · simp at hy
  | cons x cs ih =>
    intro ret
    rw [pickMin_cons]
    by_cases hx : cnt x < cnt ret
    · rw [if_pos hx]
      obtain ⟨pre, post, hdec, hpre, hmin⟩ := ih x
      refine ⟨ret :: pre, post, by rw [List.cons_append, ← hdec], ?_, ?_⟩
      · intro y hy
        rcases List.mem_cons.mp hy with rfl | hy
        · exact lt_of_le_of_lt (hmin x (List.mem_cons_self ..)) hx
        · exact hpre y hy
      · intro y hy
        rcases List.mem_cons.mp hy with rfl | hy
        · exact le_of_lt (lt_of_le_of_lt (hmin x (List.mem_cons_self ..)) hx)
        · exact hmin y hy
    · rw [if_neg hx]
      obtain ⟨pre, post, hdec, hpre, hmin⟩ := ih ret
      have hretx : cnt ret ≤ cnt x := le_of_not_lt hx
      cases pre with
      | nil =>
        have hret : ret = pickMin cnt ret cs := (List.cons.injEq .. ▸ hdec).1
        refine ⟨[], x :: cs, by simpa using hret, by simp, ?_⟩
        intro y hy
        rcases List.mem_cons.mp hy with rfl | hy
        · exact le_of_eq (congrArg cnt hret.symm)
        · rcases List.mem_cons.mp hy with rfl | hy
          · exact le_trans (le_of_eq (congrArg cnt hret.symm)) hretx
          · exact hmin y (List.mem_cons_of_mem _ hy)
      | cons a pre' =>
        have ha : ret = a := (List.cons.injEq .. ▸ hdec).1
        have hcs : cs = pre' ++ pickMin cnt ret cs :: post := (List.cons.injEq .. ▸ hdec).2
        have hpmret : cnt (pickMin cnt ret cs) < cnt ret :=
          hpre ret (List.mem_cons.mpr (Or.inl ha))
        refine ⟨ret :: x :: pre', post, ?_, ?_, ?_⟩
        · rw [List.cons_append, List.cons_append, ← hcs]
        · intro y hy
          rcases List.mem_cons.mp hy with rfl | hy
          · exact hpmret
          · rcases List.mem_cons.mp hy with rfl | hy
            · exact lt_of_lt_of_le hpmret hretx
            · exact hpre y (List.mem_cons_of_mem _ hy)
        · intro y hy
          rcases List.mem_cons.mp hy with rfl | hy
          · exact hmin y (List.mem_cons_self ..)
          · rcases List.mem_cons.mp hy with rfl | hy
            · exact le_trans (hmin ret (List.mem_cons_self ..)) hretx
            · exact hmin y (List.mem_cons_of_mem _ hy)

/-! ## Claim C6: the column-selection heuristic -/

/-- Claim C6: in every state whose root-ring traversal is defined — as it is
in every branch state of the search — `nextCol` scans the ring rightwards
from `root.right` and returns the first column header attaining the minimal
live-cell count: every earlier header in ring order has a strictly larger
count, and no header in the ring has a smaller one. -/
theorem C6_nextCol_first_min (s : matrixLinks) (cs : List Nat)
    (hw : rootRing s = some cs) (hne : cs ≠ []) :
    ∃ pre post, cs = pre ++ nextCol s :: post ∧
      (∀ y ∈ pre, s.colCountN (nextCol s) < s.colCountN y) ∧
      (∀ y ∈ cs, s.colCountN (nextCol s) ≤ s.colCountN y) := by
  unfold rootRing at hw
  have hr0 : s.rightN rootNode ≠ rootNode := by
    intro h
    rw [ringWalk, if_pos h] at hw
    exact hne (Option.some.inj hw).symm
  rw [ringWalk, if_neg hr0] at hw
  rcases hw' : ringWalk s.rightN rootNode (s.rightN (s.rightN rootNode)) s.size with _ | cs'
  · rw [hw'] at hw; simp at hw
  · rw [hw'] at hw
    obtain rfl : s.rightN rootNode :: cs' = cs := by simpa using hw
    have hnext : nextCol s = pickMin s.colCountN (s.rightN rootNode) (s.rightN rootNode :: cs') := by
      unfold nextCol
      refine nextColLoop_eq_pickMin s _ _ _ _ ?_
      rw [ringWalk, if_neg hr0, hw']
      rfl
    have hstep : pickMin s.colCountN (s.rightN rootNode) (s.rightN rootNode :: cs') =
        pickMin s.colCountN (s.rightN rootNode) cs' := by
      rw [pickMin_cons, if_neg (lt_irrefl _)]
    obtain ⟨pre, post, hdec, hpre, hmin⟩ := pickMin_first_min s.colCountN cs' (s.rightN rootNode)
    rw [hnext, hstep]
    exact ⟨pre, post, hdec, hpre, hmin⟩

set_option maxRecDepth 1000000 in
/-- Witness for C6 at the built second example: the ring is `[1, 2, 3, 4]`
and a first minimum exists. -/
theorem C6_witness :
    rootRing exampleProblem2.links = some [1, 2, 3, 4] ∧
    ([1, 2, 3, 4] : List Nat) ≠ [] ∧
    ∃ pre post, ([1, 2, 3, 4] : List Nat) = pre ++ nextCol exampleProblem2.links :: post ∧
      (∀ y ∈ pre, exampleProblem2.links.colCountN (nextCol exampleProblem2.links) <
        exampleProblem2.links.colCountN y) ∧
      (∀ y ∈ ([1, 2, 3, 4] : List Nat),
        exampleProblem2.links.colCountN (nextCol exampleProblem2.links) ≤
          exampleProblem2.links.colCountN y) :=
  ⟨by decide, by decide,
    C6_nextCol_first_min exampleProblem2.links [1, 2, 3, 4] (by decide) (by decide)⟩

end Gox

namespace Gox

/-! ## Step equations for `searchAux` -/

theorem searchAux_zero (p : exactCoverProblem) (mode : Option (Nat × Nat)) :
    searchAux p mode 0 = p := rfl

theorem searchAux_none_sol {p : exactCoverProblem} (fuel : Nat)
    (h : p.links.rightN rootNode = rootNode) :
    searchAux p none (fuel+1) = { p with solutions := p.solutions ++ [snapshotSolution p] } := by
  simp only [searchAux]
  rw [if_pos h]

theorem searchAux_none_dead {p : exactCoverProblem} (fuel : Nat)
    (h : ¬ p.links.rightN rootNode = rootNode)
    (h2 : p.links.colCountN (nextCol p.links) = 0) :
    searchAux p none (fuel+1) = p := by
  simp only [searchAux]
  rw [if_neg h, if_pos h2]

theorem searchAux_none_branch {p : exactCoverProblem} (fuel : Nat)
    (h : ¬ p.links.rightN rootNode = rootNode)
    (h2 : ¬ p.links.colCountN (nextCol p.links) = 0) :
    searchAux p none (fuel+1) =
      (let colHead := nextCol p.links
       let p1 : exactCoverProblem := { p with links := cover p.links colHead }
       let p2 := searchAux p1 (some (colHead, p1.links.downN colHead)) fuel
       { p2 with links := uncover p2.links colHead }) := by
  simp only [searchAux]
  rw [if_neg h, if_neg h2]

theorem searchAux_rows_stop {colHead rowNode : Nat} (p : exactCoverProblem) (fuel : Nat)
    (h : rowNode = colHead) :
    searchAux p (some (colHead, rowNode)) (fuel+1) = p := by
  simp only [searchAux]
  rw [if_pos h]

theorem searchAux_rows_step {colHead rowNode : Nat} (p : exactCoverProblem) (fuel : Nat)
    (h : ¬ rowNode = colHead) :
    searchAux p (some (colHead, rowNode)) (fuel+1) =
      (let p1 := pushRowToSolution p (p.links.rowOfN rowNode)
       let p2 : exactCoverProblem :=
         { p1 with links := coverRights p1.links rowNode (p1.links.rightN rowNode) p1.links.size }
       let p3 := searchAux p2 none fuel
       let p4 := (popRowFromSolution p3).2
       let p5 : exactCoverProblem :=
         { p4 with links := uncoverLefts p4.links rowNode (p4.links.leftN rowNode) p4.links.size }
       searchAux p5 (some (colHead, p5.links.downN rowNode)) fuel) := by
  simp only [searchAux]
  rw [if_neg h]

/-! ## What the search does to the bookkeeping fields

However deep it recurses, the search leaves the working solution stack and
the row names exactly as it found them, and only ever appends to the
accumulated solutions; moreover each appended solution begins with the names
of the rows that were already on the stack when the search started. -/

theorem searchAux_spec (fuel : Nat) :
    ∀ p mode, (searchAux p mode fuel).solutionRows = p.solutionRows ∧
      (searchAux p mode fuel).rowNames = p.rowNames ∧
      ∃ new, (searchAux p mode fuel).solutions = p.solutions ++ new ∧
        ∀ s ∈ new, ∃ t, s = p.solutionRows.map (fun r => p.rowNames.getD r "") ++ t := by
  induction fuel with
  | zero =>
    intro p mode
    exact ⟨rfl, rfl, [], by simp [searchAux_zero], by simp⟩
  | succ fuel ih =>
    intro p mode
    match mode with
    | none =>
      by_cases hroot : p.links.rightN rootNode = rootNode
      · rw [searchAux_none_sol fuel hroot]
        refine ⟨rfl, rfl, [snapshotSolution p], rfl, ?_⟩
        intro s hs
        rcases List.mem_cons.mp hs with rfl | hs
        · exact ⟨[], by simp [snapshotSolution]⟩
        · simp at hs
      · by_cases hcnt : p.links.colCountN (nextCol p.links) = 0
        · rw [searchAux_none_dead fuel hroot hcnt]
          exact ⟨rfl, rfl, [], by simp, by simp⟩
        · rw [searchAux_none_branch fuel hroot hcnt]
          obtain ⟨h1, h2, new, h3, h4⟩ :=
            ih { p with links := cover p.links (nextCol p.links) }
              (some (nextCol p.links,
                (cover p.links (nextCol p.links)).downN (nextCol p.links)))
          exact ⟨h1, h2, new, h3, h4⟩
    | some (colHead, rowNode) =>
      by_cases hstop : rowNode = colHead
      · rw [searchAux_rows_stop p fuel hstop]
        exact ⟨rfl, rfl, [], by simp, by simp⟩
      · rw [searchAux_rows_step p fuel hstop]
        simp only []
        set r := p.links.rowOfN rowNode with hr
        set p2 : exactCoverProblem :=
          { pushRowToSolution p r with
            links := coverRights (pushRowToSolution p r).links rowNode
              ((pushRowToSolution p r).links.rightN rowNode)
              (pushRowToSolution p r).links.size } with hp2
        obtain ⟨i1, i2, new1, i3, i4⟩ := ih p2 none
        set p3 := searchAux p2 none fuel with hp3
        set p4 := (popRowFromSolution p3).2 with hp4
        set p5 : exactCoverProblem :=
          { p4 with links := uncoverLefts p4.links rowNode (p4.links.leftN rowNode) p4.links.size }
          with hp5
        obtain ⟨j1, j2, new2, j3, j4⟩ := ih p5 (some (colHead, p5.links.downN rowNode))
        have h2sr : p2.solutionRows = p.solutionRows ++ [r] := rfl
        have h2rn : p2.rowNames = p.rowNames := rfl
        have h2sol : p2.solutions = p.solutions := rfl
        have h4sr : p4.solutionRows = p.solutionRows := by
          rw [hp4, popRowFromSolution]
          show p3.solutionRows.dropLast = p.solutionRows
          rw [i1, h2sr]
          exact List.dropLast_concat ..
        have h5sr : p5.solutionRows = p.solutionRows := h4sr
        have h5rn : p5.rowNames = p.rowNames := by
          show p4.rowNames = p.rowNames
          show p3.rowNames = p.rowNames
          rw [i2, h2rn]
        have h5sol : p5.solutions = p.solutions ++ new1 := by
          show p3.solutions = p.solutions ++ new1
          rw [i3, h2sol]
        refine ⟨by rw [j1, h5sr], by rw [j2, h5rn], new1 ++ new2, ?_, ?_⟩
        · rw [j3, h5sol, List.append_assoc]
        · intro s hs
          rcases List.mem_append.mp hs with hs | hs
          · obtain ⟨t, ht⟩ := i4 s hs
            refine ⟨p.rowNames.getD r "" :: t, ?_⟩
            rw [ht, h2sr, h2rn]
            simp
          · obtain ⟨t, ht⟩ := j4 s hs
            rw [h5sr, h5rn] at ht
            exact ⟨t, ht⟩

/-! ## Claim C5: pre-selection constrains every solution -/

theorem mem_zip_range'_inv (seg : List String) :
    ∀ k x j, (x, j) ∈ seg.zip (List.range' k seg.length) →
      k ≤ j ∧ j - k < seg.length ∧ seg.getD (j - k) "" = x := by
  induction seg with
  | nil => intro k x j h; simp at h
  | cons a seg ih =>
    intro k x j hmem
    rw [List.length_cons, List.range'_succ, List.zip_cons_cons] at hmem
    rcases List.mem_cons.mp hmem with h | h
    · have hx : x = a := (Prod.mk.injEq .. ▸ h).1
      have hj : j = k := (Prod.mk.injEq .. ▸ h).2
      subst hx; subst hj
      exact ⟨le_refl _, by simp, by simp⟩
    · obtain ⟨hk, hlt, hget⟩ := ih (k+1) x j h
      refine ⟨by omega, by simp only [List.length_cons]; omega, ?_⟩
      have harith : j - k = (j - (k+1)) + 1 := by omega
      rw [harith, List.getD_cons_succ]
      exact hget

/-- Inversion of a successful `RowIsSolution` call: the name resolved to a
row with an entry cell, and the row was pushed onto the working solution. -/
theorem RowIsSolution_ok_inv {p p1 : exactCoverProblem} {name : String}
    (h : RowIsSolution p name = .ok p1) :
    ∃ header first, p.rowsByName.lookup name = some header ∧
      p.rowFirst.getD header none = some first ∧
      p1.solutionRows = p.solutionRows ++ [header] ∧
      p1.rowNames = p.rowNames ∧ p1.solutions = p.solutions := by
  unfold RowIsSolution at h
  split at h
  · exact absurd h (by simp)
  · next header heq =>
    split at h
    · exact absurd h (by simp)
    · next first heq2 =>
      refine ⟨header, first, heq, heq2, ?_, ?_, ?_⟩ <;>
        simp only [RowSolResult.ok.injEq] at h <;> rw [← h] <;> rfl

/-- Inversion of a defined `preSolve`: both the build and the pre-selection
succeeded and the result is this problem's `Solve` output. -/
theorem preSolve_some_inv {m : List (List Bool)} {n : List String} {name : String}
    {sols : List (List String)} (h : preSolve m n name = some sols) :
    ∃ p p1, NewExactCoverProblem m n = .ok p ∧ RowIsSolution p name = .ok p1 ∧
      sols = Solve p1 := by
  unfold preSolve at h
  split at h
  · next p heq =>
    split at h
    · next p1 heq2 =>
      exact ⟨p, p1, heq, heq2, (Option.some.inj h).symm⟩
    · exact absurd h (by simp)
  · exact absurd h (by simp)

/-- Claim C5: whenever construction succeeds and pre-selecting row `name`
succeeds, every solution subsequently returned by `Solve` contains `name`. -/
theorem C5_preselected_row_in_every_solution (m : List (List Bool)) (n : List String)
    (name : String) (sols : List (List String)) (s : List String)
    (hps : preSolve m n name = some sols) (hs : s ∈ sols) : name ∈ s := by
  obtain ⟨pb, p1, hb, hrs, rfl⟩ := preSolve_some_inv hps
  obtain ⟨-, -, hmn, hndtake, hnames, hmap, hsolr, hsols, -, -⟩ := build_ok_spec hb
  obtain ⟨header, first, hl, hf, h1sr, h1rn, h1sol⟩ := RowIsSolution_ok_inv hrs
  have hmem : (name, header) ∈ pb.rowsByName := mem_of_lookup_eq_some hl
  rw [hmap] at hmem
  have hlentake : (n.take m.length).length = m.length := by
    simp only [List.length_take]
    omega
  nth_rewrite 2 [← hlentake] at hmem
  obtain ⟨-, -, hget⟩ := mem_zip_range'_inv (n.take m.length) 0 name header hmem
  have hnamehdr : pb.rowNames.getD header "" = name := by
    rw [hnames]
    simpa using hget
  obtain ⟨-, -, new, hnew, hpre⟩ := searchAux_spec (solveFuel p1) p1 none
  unfold Solve search at hs
  rw [hnew, h1sol, hsols] at hs
  simp only [List.nil_append] at hs
  obtain ⟨t, ht⟩ := hpre s hs
  rw [h1sr, hsolr, h1rn] at ht
  simp only [List.nil_append, List.map_cons, List.map_nil, List.cons_append] at ht
  rw [ht, hnamehdr]
  exact List.mem_cons_self ..

set_option maxRecDepth 1000000 in
set_option maxHeartbeats 4000000 in
/-- Witness for C5 at the second example with row B pre-selected. -/
theorem C5_witness :
    preSolve mat2 names2 "B" = some [["B", "E"]] ∧
    (["B", "E"] : List String) ∈ [(["B", "E"] : List String)] ∧
    "B" ∈ (["B", "E"] : List String) :=
  ⟨by decide, by decide,
    C5_preselected_row_in_every_solution mat2 names2 "B" [["B", "E"]] ["B", "E"]
      (by decide) (by decide)⟩

end Gox

namespace Gox

/-! ## Rings: doubly linked cycles

A ring is described by its sentinel `x0` and the list `xs` of the other
nodes in `next` order; `ringStep next prev a b` says `b` follows `a` with
consistent back pointer.  The cycle condition is a `Chain'` along
`x0 :: xs ++ [x0]` together with distinctness. -/

def ringStep (next prev : Nat → Nat) (a b : Nat) : Prop := next a = b ∧ prev b = a

def IsRing (next prev : Nat → Nat) (x0 : Nat) (xs : List Nat) : Prop :=
  List.Chain' (ringStep next prev) (x0 :: xs ++ [x0]) ∧ (x0 :: xs).Nodup

theorem IsRing_nil_iff (next prev : Nat → Nat) (x0 : Nat) :
    IsRing next prev x0 [] ↔ next x0 = x0 ∧ prev x0 = x0 := by
  unfold IsRing
  simp [List.chain'_cons, ringStep]

/-- One-pointer chains extracted from a `ringStep` chain. -/
theorem chain_next_of_chain (next prev : Nat → Nat) :
    ∀ l : List Nat, List.Chain' (ringStep next prev) l →
      List.Chain' (fun a b => next a = b) l := by
  intro l h
  exact List.Chain'.imp (fun a b hab => hab.1) h

theorem chain_prev_of_chain (next prev : Nat → Nat) :
    ∀ l : List Nat, List.Chain' (ringStep next prev) l →
      List.Chain' (fun a b => prev a = b) l.reverse := by
  intro l h
  rw [List.chain'_reverse]
  exact List.Chain'.imp (fun a b hab => hab.2) h

/-- A chain is insensitive to changing the functions outside its nodes. -/
theorem chain_update_irrelevant (next prev : Nat → Nat) (i v i' w : Nat) :
    ∀ l : List Nat, (∀ a ∈ l, a ≠ i) → (∀ a ∈ l, a ≠ i') →
      List.Chain' (ringStep next prev) l →
      List.Chain' (ringStep (Function.update next i v) (Function.update prev i' w)) l := by
  intro l
  induction l with
  | nil => intro _ _ _; exact List.chain'_nil
  | cons a l ih =>
    intro hni hni' h
    cases l with
    | nil => exact List.chain'_singleton a
    | cons b l =>
      rw [List.chain'_cons] at h ⊢
      refine ⟨⟨?_, ?_⟩, ih (fun x hx => hni x (List.mem_cons_of_mem _ hx))
        (fun x hx => hni' x (List.mem_cons_of_mem _ hx)) h.2⟩
      · rw [Function.update_noteq (hni a (List.mem_cons_self ..))]
        exact h.1.1
      · rw [Function.update_noteq (hni' b (List.mem_cons_of_mem _ (List.mem_cons_self ..)))]
        exact h.1.2

theorem mem_of_mem_cyc {x0 a : Nat} {xs : List Nat} (h : a ∈ x0 :: xs ++ [x0]) :
    a ∈ x0 :: xs := by
  rcases List.mem_cons.mp h with rfl | h
  · exact List.mem_cons_self ..
  · rcases List.mem_append.mp h with h | h
    · exact List.mem_cons_of_mem _ h
    · obtain rfl : a = x0 := by simpa using h
      exact List.mem_cons_self ..

theorem ring_update_irrelevant {next prev : Nat → Nat} {x0 : Nat} {xs : List Nat}
    (h : IsRing next prev x0 xs) (i i' v w : Nat)
    (hi : i ∉ x0 :: xs) (hi' : i' ∉ x0 :: xs) :
    IsRing (Function.update next i v) (Function.update prev i' w) x0 xs := by
  obtain ⟨hch, hnd⟩ := h
  refine ⟨chain_update_irrelevant next prev i v i' w _ ?_ ?_ hch, hnd⟩
  · exact fun a ha hai => hi (hai ▸ mem_of_mem_cyc ha)
  · exact fun a ha hai => hi' (hai ▸ mem_of_mem_cyc ha)

/-- Walking `next` from the node after `stop` along a chain that ends at
`stop` recovers exactly the chain's nodes. -/
theorem ringWalk_of_chain (f : Nat → Nat) (stop : Nat) :
    ∀ (ys : List Nat) (fuel : Nat), ys.length < fuel →
      List.Chain' (fun a b => f a = b) (ys ++ [stop]) →
      (∀ y ∈ ys, y ≠ stop) →
      ringWalk f stop (ys.headD stop) fuel = some ys := by
  intro ys
  induction ys with
  | nil =>
    intro fuel hf _ _
    match fuel, hf with
    | fuel+1, _ => simp [ringWalk]
  | cons y ys ih =>
    intro fuel hf hch hne
    match fuel, hf with
    | fuel+1, hf =>
      rw [List.headD_cons, ringWalk, if_neg (hne y (List.mem_cons_self ..))]
      have hfy : f y = (ys ++ [stop]).headD stop := by
        cases ys with
        | nil => simpa using (List.chain'_cons.mp hch).1
        | cons z zs => simpa using (List.chain'_cons.mp hch).1
      have hys : (ys ++ [stop]).headD stop = ys.headD stop := by
        cases ys <;> simp
      rw [hfy, hys, ih fuel (by simpa using hf) (List.Chain'.tail hch)
        (fun z hz => hne z (List.mem_cons_of_mem _ hz))]
      rfl

/-- Walking the ring from `next x0` with enough fuel lists the non-sentinel
nodes in order. -/
theorem ring_walk {next prev : Nat → Nat} {x0 : Nat} {xs : List Nat}
    (h : IsRing next prev x0 xs) (fuel : Nat) (hf : xs.length < fuel) :
    ringWalk next x0 (next x0) fuel = some xs := by
  obtain ⟨hch, hnd⟩ := h
  have hch' := chain_next_of_chain next prev _ hch
  have hx0 : next x0 = xs.headD x0 := by
    rcases hxs : xs with _ | ⟨y, ys⟩ <;> subst hxs
    · exact (List.chain'_cons.mp hch').1
    · exact (List.chain'_cons.mp hch').1
  rw [hx0]
  refine ringWalk_of_chain next x0 xs fuel hf (by simpa using hch'.tail) ?_
  intro y hy hy0
  subst hy0
  rw [List.nodup_cons] at hnd
  exact hnd.1 hy

/-- Rotating a ring: the cycle seen from any of its members. -/
theorem ring_rotate {next prev : Nat → Nat} {x0 : Nat} {xs : List Nat}
    (h : IsRing next prev x0 xs) {x : Nat} (hx : x ∈ x0 :: xs) :
    ∃ ys, List.Chain' (ringStep next prev) (x :: ys ++ [x]) ∧
      (x :: ys).Nodup ∧ (x :: ys).Perm (x0 :: xs) := by
  obtain ⟨hch, hnd⟩ := h
  obtain ⟨l, r, hdec⟩ := List.append_of_mem hx
  have hperm : (x :: (r ++ l)).Perm (x0 :: xs) := by
    rw [hdec]
    exact (List.Perm.cons x List.perm_append_comm).trans List.perm_middle.symm
  refine ⟨r ++ l, ?_, hperm.symm.nodup hnd, hperm⟩
  rcases l with _ | ⟨a, l'⟩
  · simp only [List.nil_append] at hdec
    obtain rfl : x0 = x := (List.cons.injEq .. ▸ hdec).1
    obtain rfl : xs = r := (List.cons.injEq .. ▸ hdec).2
    simpa using hch
  · have ha : x0 = a := (List.cons.injEq .. ▸ hdec).1
    subst ha
    have hxs : xs = l' ++ x :: r := (List.cons.injEq .. ▸ hdec).2
    subst hxs
    rw [show x0 :: (l' ++ x :: r) ++ [x0] = (x0 :: l') ++ (x :: (r ++ [x0])) by simp] at hch
    rw [List.chain'_append] at hch
    obtain ⟨hA, hB, hAB⟩ := hch
    rw [show x :: (r ++ [x0]) = (x :: r) ++ [x0] by simp, List.chain'_append] at hB
    rw [show x :: (r ++ x0 :: l') ++ [x] = (x :: r) ++ ((x0 :: l') ++ [x]) by simp,
      List.chain'_append]
    refine ⟨hB.1, ?_, ?_⟩
    · rw [List.chain'_append]
      refine ⟨hA, List.chain'_singleton x, ?_⟩
      intro a ha y hy
      simp only [List.head?_cons, Option.mem_def, Option.some.injEq] at hy
      subst hy
      exact hAB a ha x (by simp)
    · intro a ha y hy
      simp only [List.cons_append, List.head?_cons, Option.mem_def, Option.some.injEq] at hy
      subst hy
      exact hB.2.2 a ha x0 (by simp)

end Gox

namespace Gox

/-- A chain can be transported to a relation that agrees on its adjacent
pairs; the first of a pair lies in `l.dropLast`, the second in `l.tail`. -/
theorem chain'_imp_mem {R S : Nat → Nat → Prop} :
    ∀ l : List Nat, List.Chain' R l →
      (∀ a b, a ∈ l.dropLast → b ∈ l.tail → R a b → S a b) → List.Chain' S l := by
  intro l
  induction l with
  | nil => intro _ _; exact List.chain'_nil
  | cons a l ih =>
    intro hch himp
    cases l with
    | nil => exact List.chain'_singleton a
    | cons b t =>
      rw [List.chain'_cons] at hch ⊢
      refine ⟨himp a b (by simp) (by simp) hch.1, ?_⟩
      refine ih hch.2 ?_
      intro x y hx hy hr
      exact himp x y (List.mem_cons_of_mem _ hx) (List.mem_cons_of_mem _ hy) hr

theorem getLast?_not_mem_dropLast {l : List Nat} {a : Nat} (hnd : l.Nodup)
    (h : l.getLast? = some a) : a ∉ l.dropLast := by
  have hne : l ≠ [] := by
    rintro rfl
    simp at h
  have hdec := List.dropLast_append_getLast hne
  have ha : a = l.getLast hne := by
    rw [List.getLast?_eq_getLast_of_ne_nil hne] at h
    exact (Option.some.inj h).symm
  rw [← hdec, List.nodup_append] at hnd
  intro hmem
  exact hnd.2.2 hmem (by simp [ha])

theorem head?_not_mem_tail {l : List Nat} {a : Nat} (hnd : l.Nodup)
    (h : l.head? = some a) : a ∉ l.tail := by
  cases l with
  | nil => simp at h
  | cons b t =>
    obtain rfl : b = a := by simpa using h
    simpa using (List.nodup_cons.mp hnd).1

/-- Splicing a node out of a ring: updating `next` at `prev j` and `prev` at
`next j` removes `j` and leaves a ring on the remaining nodes.  The spliced
node's own pointers still satisfy the consistency equations, its two
neighbors are distinct from it, and both remain in the ring. -/
theorem ring_erase {next prev : Nat → Nat} {x0 j : Nat} {l r : List Nat}
    (h : IsRing next prev x0 (l ++ j :: r)) :
    IsRing (Function.update next (prev j) (next j))
      (Function.update prev (next j) (prev j)) x0 (l ++ r) ∧
    next (prev j) = j ∧ prev (next j) = j ∧ prev j ≠ j ∧ next j ≠ j ∧
    prev j ∈ x0 :: (l ++ r) ∧ next j ∈ x0 :: (l ++ r) := by
  obtain ⟨hch, hnd⟩ := h
  have hcyc : x0 :: (l ++ j :: r) ++ [x0] = (x0 :: l) ++ (j :: (r ++ [x0])) := by simp
  rw [hcyc, List.chain'_append] at hch
  obtain ⟨hA, hjB, hAB⟩ := hch
  obtain ⟨pj, hpj⟩ : ∃ pj, (x0 :: l).getLast? = some pj :=
    ⟨_, List.getLast?_eq_getLast_of_ne_nil (by simp)⟩
  obtain ⟨nj, hnj⟩ : ∃ nj, (r ++ [x0]).head? = some nj := by
    cases r <;> simp
  have hRpj : ringStep next prev pj j := hAB pj (by simp [hpj]) j (by simp)
  have hRjn : ringStep next prev j nj :=
    (List.chain'_cons'.mp hjB).1 nj (by simp [hnj])
  have hprevj : prev j = pj := hRpj.2
  have hnextj : next j = nj := hRjn.1
  -- distinctness facts
  have hnd' := hnd
  rw [List.nodup_cons] at hnd'
  obtain ⟨hx0notin, hndtail⟩ := hnd'
  rw [List.nodup_append] at hndtail
  obtain ⟨hndl, hndjr, hdisj⟩ := hndtail
  have hjx0 : j ≠ x0 := by
    intro hj
    exact hx0notin (by simp [← hj])
  have hjl : j ∉ l := by
    intro hj
    exact hdisj hj (List.mem_cons_self ..)
  have hjr : j ∉ r := (List.nodup_cons.mp hndjr).1
  have hx0l : x0 ∉ l := fun hx => hx0notin (List.mem_append.mpr (Or.inl hx))
  have hx0r : x0 ∉ r := fun hx =>
    hx0notin (List.mem_append.mpr (Or.inr (List.mem_cons_of_mem _ hx)))
  have hpjmemA : pj ∈ x0 :: l := List.mem_of_getLast?_eq_some hpj
  have hnjmemB : nj ∈ r ++ [x0] := List.mem_of_mem_head? (by simp [hnj])
  have hpjne : pj ≠ j := by
    rintro rfl
    rcases List.mem_cons.mp hpjmemA with h | h
    · exact hjx0 h
    · exact hjl h
  have hnjne : nj ≠ j := by
    rintro rfl
    rcases List.mem_append.mp hnjmemB with h | h
    · exact hjr h
    · exact hjx0 (by simpa using h)
  have hpjmem : pj ∈ x0 :: (l ++ r) := by
    rcases List.mem_cons.mp hpjmemA with h | h
    · exact h ▸ List.mem_cons_self ..
    · exact List.mem_cons_of_mem _ (List.mem_append.mpr (Or.inl h))
  have hnjmem : nj ∈ x0 :: (l ++ r) := by
    rcases List.mem_append.mp hnjmemB with h | h
    · exact List.mem_cons_of_mem _ (List.mem_append.mpr (Or.inr h))
    · exact (by simpa using h : nj = x0) ▸ List.mem_cons_self ..
  have hndA : (x0 :: l).Nodup := List.nodup_cons.mpr ⟨hx0l, hndl⟩
  have hndB : (r ++ [x0]).Nodup := by
    rw [List.nodup_append]
    refine ⟨(List.nodup_cons.mp hndjr).2, List.nodup_singleton _, ?_⟩
    intro a ha hb
    obtain rfl : a = x0 := by simpa using hb
    exact hx0r ha
  have hdisjlr : ∀ a ∈ l, a ∉ r := by
    intro a ha har
    exact hdisj ha (List.mem_cons_of_mem _ har)
  rw [hprevj, hnextj]
  refine ⟨⟨?_, ?_⟩, hprevj ▸ hRpj.1, hnextj ▸ hRjn.2, hprevj ▸ hpjne, hnextj ▸ hnjne,
    hprevj ▸ hpjmem, hnextj ▸ hnjmem⟩
  · have hcyc' : x0 :: (l ++ r) ++ [x0] = (x0 :: l) ++ (r ++ [x0]) := by simp
    rw [hcyc', List.chain'_append]
    refine ⟨?_, ?_, ?_⟩
    · refine chain'_imp_mem _ hA ?_
      intro a b hadl hbtl hr
      have hane : a ≠ pj := by
        intro hae
        exact getLast?_not_mem_dropLast hndA hpj (hae ▸ hadl)
      have hbne : b ≠ nj := by
        intro hbe
        subst hbe
        rcases List.mem_append.mp hnjmemB with h | h
        · exact hdisjlr b (by simpa using hbtl) h
        · exact hx0l (by simpa [show b = x0 by simpa using h] using hbtl)
      exact ⟨by rw [Function.update_noteq hane]; exact hr.1,
        by rw [Function.update_noteq hbne]; exact hr.2⟩
    · refine chain'_imp_mem _ ((List.chain'_cons'.mp hjB).2) ?_
      intro a b hadl hbtl hr
      have hadl' : a ∈ r := by
        rwa [List.dropLast_concat] at hadl
      have hane : a ≠ pj := by
        intro hae
        subst hae
        rcases List.mem_cons.mp hpjmemA with h | h
        · exact hx0r (h ▸ hadl')
        · exact hdisjlr a h hadl'
      have hbne : b ≠ nj := by
        intro hbe
        exact head?_not_mem_tail hndB hnj (hbe ▸ hbtl)
      exact ⟨by rw [Function.update_noteq hane]; exact hr.1,
        by rw [Function.update_noteq hbne]; exact hr.2⟩
    · intro a ha y hy
      have ha' : pj = a := by
        rw [hpj] at ha
        simpa using ha
      have hy' : nj = y := by
        rw [hnj] at hy
        simpa using hy
      rw [← ha', ← hy']
      exact ⟨Function.update_same .., Function.update_same ..⟩
  · refine List.Nodup.sublist ?_ hnd
    refine List.Sublist.cons₂ x0 ?_
    exact List.Sublist.append (List.Sublist.refl l) (List.sublist_cons_self j r)

end Gox

namespace Gox

/-! ## Splice algebra -/

theorem set_getD_eq_self {α : Type} (l : List α) (i : Nat) (v d : α) (h : l.getD i d = v) :
    l.set i v = l := by
  by_cases hi : i < l.length
  · refine List.ext_getElem? fun k => ?_
    by_cases hk : k = i
    · subst hk
      rw [List.getElem?_set_eq_of_lt _ hi, List.getElem?_eq_getElem hi]
      simp only [List.getD, List.get?_eq_getElem?] at h
      rw [List.getElem?_eq_getElem hi] at h
      simp only [Option.getD_some] at h
      rw [h]
    · rw [List.getElem?_set_ne (fun he => hk he.symm)]
  · exact List.set_eq_of_length_le (by omega)

theorem matrixLinks_ext {s t : matrixLinks} (h1 : s.size = t.size)
    (h2 : s.numRows = t.numRows) (h3 : s.numCols = t.numCols)
    (h4 : s.left = t.left) (h5 : s.right = t.right) (h6 : s.up = t.up)
    (h7 : s.down = t.down) (h8 : s.colHead = t.colHead) (h9 : s.rowOf = t.rowOf)
    (h10 : s.colIndex = t.colIndex) (h11 : s.colCount = t.colCount) : s = t := by
  cases s
  cases t
  simp_all

theorem spliceOutUD_left (s : matrixLinks) (j : Nat) : (spliceOutUD s j).left = s.left := rfl
theorem spliceOutUD_right (s : matrixLinks) (j : Nat) : (spliceOutUD s j).right = s.right := rfl
theorem spliceOutUD_rowOf (s : matrixLinks) (j : Nat) : (spliceOutUD s j).rowOf = s.rowOf := rfl
theorem spliceOutUD_colHead (s : matrixLinks) (j : Nat) :
    (spliceOutUD s j).colHead = s.colHead := rfl
theorem spliceOutUD_colIndex (s : matrixLinks) (j : Nat) :
    (spliceOutUD s j).colIndex = s.colIndex := rfl
theorem spliceOutUD_size (s : matrixLinks) (j : Nat) : (spliceOutUD s j).size = s.size := rfl
theorem spliceOutUD_numRows (s : matrixLinks) (j : Nat) :
    (spliceOutUD s j).numRows = s.numRows := rfl
theorem spliceOutUD_numCols (s : matrixLinks) (j : Nat) :
    (spliceOutUD s j).numCols = s.numCols := rfl

theorem spliceInUD_left (s : matrixLinks) (j : Nat) : (spliceInUD s j).left = s.left := rfl
theorem spliceInUD_right (s : matrixLinks) (j : Nat) : (spliceInUD s j).right = s.right := rfl
theorem spliceInUD_rowOf (s : matrixLinks) (j : Nat) : (spliceInUD s j).rowOf = s.rowOf := rfl
theorem spliceInUD_colHead (s : matrixLinks) (j : Nat) :
    (spliceInUD s j).colHead = s.colHead := rfl
theorem spliceInUD_colIndex (s : matrixLinks) (j : Nat) :
    (spliceInUD s j).colIndex = s.colIndex := rfl
theorem spliceInUD_size (s : matrixLinks) (j : Nat) : (spliceInUD s j).size = s.size := rfl
theorem spliceInUD_numRows (s : matrixLinks) (j : Nat) :
    (spliceInUD s j).numRows = s.numRows := rfl
theorem spliceInUD_numCols (s : matrixLinks) (j : Nat) :
    (spliceInUD s j).numCols = s.numCols := rfl

theorem spliceOutUD_down (s : matrixLinks) (j : Nat) :
    (spliceOutUD s j).down = s.down.set (s.upN j) (s.downN j) := rfl

theorem spliceOutUD_up (s : matrixLinks) (j : Nat) :
    (spliceOutUD s j).up = s.up.set (s.downN j) (s.upN j) := by
  have h1 : (setDown s (s.upN j) (s.downN j)).downN j = s.downN j := by
    by_cases he : s.upN j = j
    · show (s.down.set (s.upN j) (s.downN j)).getD j 0 = s.downN j
      rw [he, set_getD_eq_self s.down j (s.downN j) 0 rfl]
      rfl
    · exact getD_set_ne _ _ _ _ _ he
  show s.up.set ((setDown s (s.upN j) (s.downN j)).downN j)
    ((setDown s (s.upN j) (s.downN j)).upN j) = s.up.set (s.downN j) (s.upN j)
  rw [h1]
  rfl

theorem spliceOutUD_colCount (s : matrixLinks) (j : Nat) :
    (spliceOutUD s j).colCount =
      s.colCount.set (s.colHeadN j) (s.colCountN (s.colHeadN j) - 1) := rfl

theorem spliceInUD_down (s : matrixLinks) (j : Nat) :
    (spliceInUD s j).down = s.down.set (s.upN j) j := rfl

theorem spliceInUD_up (s : matrixLinks) (j : Nat) (hju : s.upN j ≠ j) :
    (spliceInUD s j).up = s.up.set (s.downN j) j := by
  have h1 : (setDown s (s.upN j) j).downN j = s.downN j :=
    getD_set_ne _ _ _ _ _ hju
  show s.up.set ((setDown s (s.upN j) j).downN j) j = s.up.set (s.downN j) j
  rw [h1]

theorem spliceInUD_colCount (s : matrixLinks) (j : Nat) :
    (spliceInUD s j).colCount =
      s.colCount.set (s.colHeadN j) (s.colCountN (s.colHeadN j) + 1) := rfl

set_option maxHeartbeats 2000000 in
/-- Splicing a node back in immediately after splicing it out restores the
state exactly, provided the node was consistently linked and not its own
neighbor. -/
theorem spliceIn_spliceOut (s : matrixLinks) (j : Nat)
    (hud : s.downN (s.upN j) = j) (hdu : s.upN (s.downN j) = j)
    (hju : s.upN j ≠ j) (hjd : s.downN j ≠ j) :
    spliceInUD (spliceOutUD s j) j = s := by
  have hTup : (spliceOutUD s j).upN j = s.upN j := by
    show (spliceOutUD s j).up.getD j 0 = s.upN j
    rw [spliceOutUD_up]
    exact getD_set_ne _ _ _ _ _ hjd
  have hTdown : (spliceOutUD s j).downN j = s.downN j := by
    show (spliceOutUD s j).down.getD j 0 = s.downN j
    rw [spliceOutUD_down]
    exact getD_set_ne _ _ _ _ _ hju
  have hTch : (spliceOutUD s j).colHeadN j = s.colHeadN j := rfl
  refine matrixLinks_ext rfl rfl rfl rfl rfl ?_ ?_ rfl rfl rfl ?_
  · rw [spliceInUD_up _ _ (by rw [hTup]; exact hju), hTdown, spliceOutUD_up, List.set_set]
    exact set_getD_eq_self _ _ _ 0 hdu
  · rw [spliceInUD_down, hTup, spliceOutUD_down, List.set_set]
    exact set_getD_eq_self _ _ _ 0 hud
  · rw [spliceInUD_colCount, hTch, spliceOutUD_colCount]
    by_cases hch : s.colHeadN j < s.colCount.length
    · have hread : (s.colCount.set (s.colHeadN j)
          (s.colCountN (s.colHeadN j) - 1)).getD (s.colHeadN j) 0 =
          s.colCountN (s.colHeadN j) - 1 := getD_set_self _ _ _ _ hch
      show (s.colCount.set (s.colHeadN j) (s.colCountN (s.colHeadN j) - 1)).set (s.colHeadN j)
        ((spliceOutUD s j).colCountN ((spliceOutUD s j).colHeadN j) + 1) = s.colCount
      have hread2 : (spliceOutUD s j).colCountN ((spliceOutUD s j).colHeadN j) =
          s.colCountN (s.colHeadN j) - 1 := by
        show (spliceOutUD s j).colCount.getD ((spliceOutUD s j).colHeadN j) 0 = _
        rw [spliceOutUD_colCount, hTch]
        exact hread
      rw [hread2, List.set_set]
      have harith : s.colCountN (s.colHeadN j) - 1 + 1 = s.colCountN (s.colHeadN j) := by omega
      rw [harith]
      exact set_getD_eq_self _ _ _ 0 rfl
    · have hle : s.colCount.length ≤ s.colHeadN j := Nat.le_of_not_lt hch
      rw [List.set_eq_of_length_le hle, List.set_eq_of_length_le hle]

/-- The sequence of splice-outs performed by one `cover`. -/
def applyOuts (s : matrixLinks) : List Nat → matrixLinks
  | [] => s
  | j :: js => applyOuts (spliceOutUD s j) js

/-- The sequence of splice-ins performed by one `uncover`. -/
def applyIns (s : matrixLinks) : List Nat → matrixLinks
  | [] => s
  | j :: js => applyIns (spliceInUD s j) js

/-- Each splice in the sequence acts on a consistently linked node of the
state reached at that point. -/
def GoodSplices (s : matrixLinks) : List Nat → Prop
  | [] => True
  | j :: js =>
    (s.downN (s.upN j) = j ∧ s.upN (s.downN j) = j ∧ s.upN j ≠ j ∧ s.downN j ≠ j) ∧
      GoodSplices (spliceOutUD s j) js

theorem applyIns_append (a b : List Nat) : ∀ s : matrixLinks,
    applyIns s (a ++ b) = applyIns (applyIns s a) b := by
  induction a with
  | nil => intro s; rfl
  | cons j js ih => intro s; exact ih (spliceInUD s j)

/-- Undoing the splices in reverse order restores the state exactly. -/
theorem applyIns_reverse_applyOuts (js : List Nat) : ∀ s : matrixLinks,
    GoodSplices s js → applyIns (applyOuts s js) js.reverse = s := by
  induction js with
  | nil => intro s _; rfl
  | cons j js ih =>
    intro s h
    obtain ⟨⟨h1, h2, h3, h4⟩, hrest⟩ := h
    rw [show applyOuts s (j :: js) = applyOuts (spliceOutUD s j) js from rfl,
      List.reverse_cons, applyIns_append, ih _ hrest]
    exact spliceIn_spliceOut s j h1 h2 h3 h4

theorem applyOuts_left (js : List Nat) : ∀ s, (applyOuts s js).left = s.left := by
  induction js with
  | nil => intro s; rfl
  | cons j js ih => intro s; exact ih (spliceOutUD s j)

theorem applyOuts_right (js : List Nat) : ∀ s, (applyOuts s js).right = s.right := by
  induction js with
  | nil => intro s; rfl
  | cons j js ih => intro s; exact ih (spliceOutUD s j)

theorem applyOuts_rowOf (js : List Nat) : ∀ s, (applyOuts s js).rowOf = s.rowOf := by
  induction js with
  | nil => intro s; rfl
  | cons j js ih => intro s; exact ih (spliceOutUD s j)

theorem applyOuts_colHead (js : List Nat) : ∀ s, (applyOuts s js).colHead = s.colHead := by
  induction js with
  | nil => intro s; rfl
  | cons j js ih => intro s; exact ih (spliceOutUD s j)

theorem applyOuts_size (js : List Nat) : ∀ s, (applyOuts s js).size = s.size := by
  induction js with
  | nil => intro s; rfl
  | cons j js ih => intro s; exact ih (spliceOutUD s j)

theorem applyOuts_rightN (js : List Nat) (s : matrixLinks) :
    (applyOuts s js).rightN = s.rightN := by
  funext k
  show (applyOuts s js).right.getD k 0 = s.right.getD k 0
  rw [applyOuts_right]

theorem applyOuts_leftN (js : List Nat) (s : matrixLinks) :
    (applyOuts s js).leftN = s.leftN := by
  funext k
  show (applyOuts s js).left.getD k 0 = s.left.getD k 0
  rw [applyOuts_left]

end Gox

namespace Gox

/-! ## Well-formed states

`lenWF` records the static arena shape, `ColWF` the column-ring structure:
every header heads an up/down ring over its current live cells and its
counter equals the ring's length. -/

/-- `h` is a column-header index. -/
def isHeaderIdx (s : matrixLinks) (h : Nat) : Prop := 1 ≤ h ∧ h ≤ s.numCols

/-- `x` is a cell index. -/
def isCellIdx (s : matrixLinks) (x : Nat) : Prop := s.numCols + 1 ≤ x ∧ x < s.size

/-- Backing lists all have full capacity, and the allocated nodes fit. -/
structure lenWF (s : matrixLinks) : Prop where
  left : s.left.length = arenaCap s.numRows s.numCols
  right : s.right.length = arenaCap s.numRows s.numCols
  up : s.up.length = arenaCap s.numRows s.numCols
  down : s.down.length = arenaCap s.numRows s.numCols
  colHead : s.colHead.length = arenaCap s.numRows s.numCols
  rowOf : s.rowOf.length = arenaCap s.numRows s.numCols
  colIndex : s.colIndex.length = arenaCap s.numRows s.numCols
  colCount : s.colCount.length = arenaCap s.numRows s.numCols
  size : s.size ≤ arenaCap s.numRows s.numCols
  cols : s.numCols + 1 ≤ s.size

/-- The column rings: every header (active or covered) heads an up/down ring
of cells of its column, and its counter equals the ring's length. -/
structure ColWF (s : matrixLinks) (live : Nat → List Nat) : Prop where
  ring : ∀ h, isHeaderIdx s h → IsRing s.downN s.upN h (live h)
  mem : ∀ h, isHeaderIdx s h → ∀ x ∈ live h, isCellIdx s x ∧ s.colHeadN x = h
  cnt : ∀ h, isHeaderIdx s h → s.colCountN h = ((live h).length : Int)

theorem node_lt_size {s : matrixLinks} {live : Nat → List Nat}
    (hlen : lenWF s) (hw : ColWF s live) {h' x : Nat}
    (hh : isHeaderIdx s h') (hx : x ∈ h' :: live h') : x < s.size := by
  rcases List.mem_cons.mp hx with rfl | hx
  · have h1 := hlen.cols
    have h2 := hh.2
    omega
  · exact (hw.mem h' hh x hx).1.2

/-- Distinct headers head rings over disjoint node sets. -/
theorem ring_sets_disjoint {s : matrixLinks} {live : Nat → List Nat}
    (hw : ColWF s live) {h h' : Nat} (hh : isHeaderIdx s h) (hh' : isHeaderIdx s h')
    (hne : h ≠ h') {x : Nat} (hx : x ∈ h :: live h) : x ∉ h' :: live h' := by
  intro hx'
  rcases List.mem_cons.mp hx with rfl | hx
  · rcases List.mem_cons.mp hx' with h1 | h1
    · exact hne h1
    · have hcell := (hw.mem h' hh' x h1).1.1
      have := hh.2
      omega
  · rcases List.mem_cons.mp hx' with h1 | h1
    · have hcell := (hw.mem h hh x hx).1.1
      have := h1 ▸ hh'.2
      omega
    · have e1 := (hw.mem h hh x hx).2
      have e2 := (hw.mem h' hh' x h1).2
      exact hne (e1 ▸ e2 ▸ rfl)

theorem getD_set_fun {α : Type} (l : List α) (i : Nat) (v d : α) (h : i < l.length) :
    (fun k => (l.set i v).getD k d) = Function.update (fun k => l.getD k d) i v := by
  funext k
  by_cases hk : k = i
  · subst hk
    rw [Function.update_same]
    exact getD_set_self _ _ _ _ h
  · rw [Function.update_noteq hk]
    exact getD_set_ne _ _ _ _ _ (fun he => hk he.symm)

/-- Effect of one splice-out on a well-formed family of column rings: the
spliced cell leaves its column's ring, all other rings, the consistency
equations needed to undo the splice, and the untouched slots are preserved. -/
theorem spliceOut_step {s : matrixLinks} {live : Nat → List Nat} {j h' : Nat}
    (hlen : lenWF s) (hw : ColWF s live)
    (hh : isHeaderIdx s h') (hchj : s.colHeadN j = h') (hj : j ∈ live h') :
    ColWF (spliceOutUD s j) (Function.update live h' ((live h').erase j)) ∧
    lenWF (spliceOutUD s j) ∧
    (s.downN (s.upN j) = j ∧ s.upN (s.downN j) = j ∧ s.upN j ≠ j ∧ s.downN j ≠ j) ∧
    (∀ i, i ∉ h' :: live h' →
      (spliceOutUD s j).downN i = s.downN i ∧ (spliceOutUD s j).upN i = s.upN i) ∧
    (∀ h, h ≠ h' → (spliceOutUD s j).colCountN h = s.colCountN h) := by
  obtain ⟨l, r, hdec⟩ := List.append_of_mem hj
  have hring := hw.ring h' hh
  rw [hdec] at hring
  obtain ⟨hring', hnpj, hnnj, hpjne, hnjne, hpjmem, hnjmem⟩ := ring_erase hring
  have hndtail : (live h').Nodup := (List.nodup_cons.mp (hw.ring h' hh).2).2
  have hjl : j ∉ l := by
    intro hjl
    rw [hdec, List.nodup_append] at hndtail
    exact hndtail.2.2 hjl (List.mem_cons_self ..)
  have herase : (live h').erase j = l ++ r := by
    rw [hdec, List.erase_append_right _ hjl, List.erase_cons_head]
  have hsub : ∀ a, a ∈ h' :: (l ++ r) → a ∈ h' :: live h' := by
    intro a ha
    rcases List.mem_cons.mp ha with rfl | ha
    · exact List.mem_cons_self ..
    · refine List.mem_cons_of_mem _ ?_
      rw [hdec]
      rcases List.mem_append.mp ha with ha | ha
      · exact List.mem_append.mpr (Or.inl ha)
      · exact List.mem_append.mpr (Or.inr (List.mem_cons_of_mem _ ha))
  have hupmem : s.upN j ∈ h' :: live h' := hsub _ hpjmem
  have hdownmem : s.downN j ∈ h' :: live h' := hsub _ hnjmem
  have hupb : s.upN j < s.down.length := by
    rw [hlen.down]
    exact lt_of_lt_of_le (node_lt_size hlen hw hh hupmem) hlen.size
  have hdownb : s.downN j < s.up.length := by
    rw [hlen.up]
    exact lt_of_lt_of_le (node_lt_size hlen hw hh hdownmem) hlen.size
  have hdfun : (spliceOutUD s j).downN = Function.update s.downN (s.upN j) (s.downN j) := by
    have h0 : (spliceOutUD s j).downN = fun k => (s.down.set (s.upN j) (s.downN j)).getD k 0 := by
      funext k
      show (spliceOutUD s j).down.getD k 0 = _
      rw [spliceOutUD_down]
    rw [h0]
    exact getD_set_fun _ _ _ _ hupb
  have hufun : (spliceOutUD s j).upN = Function.update s.upN (s.downN j) (s.upN j) := by
    have h0 : (spliceOutUD s j).upN = fun k => (s.up.set (s.downN j) (s.upN j)).getD k 0 := by
      funext k
      show (spliceOutUD s j).up.getD k 0 = _
      rw [spliceOutUD_up]
    rw [h0]
    exact getD_set_fun _ _ _ _ hdownb
  have hcntb : h' < s.colCount.length := by
    rw [hlen.colCount]
    refine lt_of_lt_of_le ?_ hlen.size
    have h1 := hlen.cols
    have h2 := hh.2
    omega
  have hcnt' : ∀ h, h ≠ h' → (spliceOutUD s j).colCountN h = s.colCountN h := by
    intro h hne
    show (spliceOutUD s j).colCount.getD h 0 = _
    rw [spliceOutUD_colCount, hchj]
    exact getD_set_ne _ _ _ _ _ (fun he => hne he.symm)
  have hframe : ∀ i, i ∉ h' :: live h' →
      (spliceOutUD s j).downN i = s.downN i ∧ (spliceOutUD s j).upN i = s.upN i := by
    intro i hi
    constructor
    · rw [hdfun]
      exact Function.update_noteq (fun he => hi (by rw [he]; exact hupmem)) _ _
    · rw [hufun]
      exact Function.update_noteq (fun he => hi (by rw [he]; exact hdownmem)) _ _
  have hlen' : lenWF (spliceOutUD s j) := by
    refine ⟨?_, ?_, ?_, ?_, ?_, ?_, ?_, ?_, hlen.size, hlen.cols⟩
    · exact hlen.left
    · exact hlen.right
    · rw [spliceOutUD_up, List.length_set]; exact hlen.up
    · rw [spliceOutUD_down, List.length_set]; exact hlen.down
    · exact hlen.colHead
    · exact hlen.rowOf
    · exact hlen.colIndex
    · rw [spliceOutUD_colCount, List.length_set]; exact hlen.colCount
  refine ⟨?_, hlen', ⟨hnpj, hnnj, hpjne, hnjne⟩, hframe, hcnt'⟩
  refine ⟨?_, ?_, ?_⟩
  · intro h hh2
    have hh2' : isHeaderIdx s h := hh2
    by_cases he : h = h'
    · subst he
      rw [Function.update_same, herase, hdfun, hufun]
      exact hring'
    · rw [Function.update_noteq he, hdfun, hufun]
      refine ring_update_irrelevant (hw.ring h hh2') (s.upN j) (s.downN j)
        (s.downN j) (s.upN j) ?_ ?_
      · intro hmem
        exact ring_sets_disjoint hw hh hh2' (fun h0 => he h0.symm) hupmem hmem
      · intro hmem
        exact ring_sets_disjoint hw hh hh2' (fun h0 => he h0.symm) hdownmem hmem
  · intro h hh2 x hx
    have hh2' : isHeaderIdx s h := hh2
    by_cases he : h = h'
    · subst he
      rw [Function.update_same] at hx
      exact hw.mem h hh2' x (List.mem_of_mem_erase hx)
    · rw [Function.update_noteq he] at hx
      exact hw.mem h hh2' x hx
  · intro h hh2
    have hh2' : isHeaderIdx s h := hh2
    by_cases he : h = h'
    · subst he
      rw [Function.update_same]
      have hread : (spliceOutUD s j).colCountN h = s.colCountN h - 1 := by
        show (spliceOutUD s j).colCount.getD h 0 = _
        rw [spliceOutUD_colCount, hchj]
        exact getD_set_self _ _ _ _ hcntb
      rw [hread, hw.cnt h hh2', List.length_erase_of_mem hj]
      have hpos : 1 ≤ (live h).length := List.length_pos.mpr (List.ne_nil_of_mem hj)
      omega
    · rw [Function.update_noteq he, hcnt' h he]
      exact hw.cnt h hh2'

end Gox

namespace Gox

/-! ## The dancing-links invariant -/

/-- The bookkeeping data of a well-formed state: the active headers in root
ring order, the live cells of every column in ring order, the cells of every
row in ring order. -/
structure WFData where
  act : List Nat
  live : Nat → List Nat
  rowCells : Nat → List Nat

/-- Structural part of the invariant: arena shape, root ring over the active
headers, column rings (also for covered headers), static row rings over
cells, and one cell per column in each row. -/
structure DlxCore (s : matrixLinks) (d : WFData) : Prop where
  len : lenWF s
  root : IsRing s.rightN s.leftN rootNode d.act
  actHdr : ∀ h ∈ d.act, isHeaderIdx s h
  col : ColWF s d.live
  rowRing : ∀ i c cs, d.rowCells i = c :: cs → IsRing s.rightN s.leftN c cs
  rowMem : ∀ i, ∀ x ∈ d.rowCells i,
    isCellIdx s x ∧ s.rowOfN x = i ∧ isHeaderIdx s (s.colHeadN x)
  cellRow : ∀ h, isHeaderIdx s h → ∀ x ∈ d.live h, x ∈ d.rowCells (s.rowOfN x)
  rowCols : ∀ i, ((d.rowCells i).map s.colHeadN).Nodup

/-- Semantic part of the invariant: every cell live in an active column has
all of its row linked in, in active columns. -/
def DlxW4 (s : matrixLinks) (d : WFData) : Prop :=
  ∀ h ∈ d.act, ∀ x ∈ d.live h, ∀ y ∈ d.rowCells (s.rowOfN x),
    s.colHeadN y ∈ d.act ∧ y ∈ d.live (s.colHeadN y)

def DlxWF (s : matrixLinks) (d : WFData) : Prop := DlxCore s d ∧ DlxW4 s d

theorem header_lt_size {s : matrixLinks} (hlen : lenWF s) {h : Nat}
    (hh : isHeaderIdx s h) : h < s.size := by
  have h1 := hlen.cols
  have h2 := hh.2
  omega

theorem rootlike_le {s : matrixLinks} {d : WFData} (core : DlxCore s d) :
    ∀ a ∈ rootNode :: d.act, a ≤ s.numCols := by
  intro a ha
  rcases List.mem_cons.mp ha with rfl | ha
  · exact Nat.zero_le _
  · exact (core.actHdr a ha).2

theorem nodup_all_lt_length_le {l : List Nat} {N : Nat} (hnd : l.Nodup)
    (hlt : ∀ x ∈ l, x < N) : l.length ≤ N := by
  classical
  have hsub : l.toFinset ⊆ Finset.range N := by
    intro x hx
    exact Finset.mem_range.mpr (hlt x (List.mem_toFinset.mp hx))
  have hcard := Finset.card_le_card hsub
  rwa [List.toFinset_card_of_nodup hnd, Finset.card_range] at hcard

theorem eq_of_nodup_map {f : Nat → Nat} {l : List Nat} (h : (l.map f).Nodup)
    {x y : Nat} (hx : x ∈ l) (hy : y ∈ l) (hxy : f x = f y) : x = y :=
  List.inj_on_of_nodup_map h hx hy hxy

/-! ## Decomposing `cover` and `uncover` -/

/-- The first two statements of `cover`: unlink the header from the root
ring (`head.right.left = head.left; head.left.right = head.right`). -/
def headUnlinkLR (s : matrixLinks) (head : Nat) : matrixLinks :=
  let s1 := setLeft s (s.rightN head) (s.leftN head)
  setRight s1 (s1.leftN head) (s1.rightN head)

/-- The last two statements of `uncover`: relink the header into the root
ring (`head.right.left = head; head.left.right = head`). -/
def headRelinkLR (s : matrixLinks) (head : Nat) : matrixLinks :=
  let s2 := setLeft s (s.rightN head) head
  setRight s2 (s2.leftN head) head

theorem cover_eq_coverCol (s : matrixLinks) (head : Nat) :
    cover s head = coverCol (headUnlinkLR s head) head
      ((headUnlinkLR s head).downN head) (headUnlinkLR s head).size := rfl

theorem uncover_eq_uncoverCol (s : matrixLinks) (head : Nat) :
    uncover s head = headRelinkLR (uncoverCol s head (s.upN head) s.size) head := rfl

theorem headUnlinkLR_left_eq (s : matrixLinks) (c : Nat) :
    (headUnlinkLR s c).left = s.left.set (s.rightN c) (s.leftN c) := rfl

theorem headUnlinkLR_right_eq (s : matrixLinks) (c : Nat) :
    (headUnlinkLR s c).right = s.right.set
      ((setLeft s (s.rightN c) (s.leftN c)).leftN c)
      ((setLeft s (s.rightN c) (s.leftN c)).rightN c) := rfl

theorem headUnlinkLR_up (s : matrixLinks) (c : Nat) :
    (headUnlinkLR s c).up = s.up := rfl

theorem headUnlinkLR_down (s : matrixLinks) (c : Nat) :
    (headUnlinkLR s c).down = s.down := rfl

theorem headUnlinkLR_colHead (s : matrixLinks) (c : Nat) :
    (headUnlinkLR s c).colHead = s.colHead := rfl

theorem headUnlinkLR_rowOf (s : matrixLinks) (c : Nat) :
    (headUnlinkLR s c).rowOf = s.rowOf := rfl

theorem headUnlinkLR_colCount (s : matrixLinks) (c : Nat) :
    (headUnlinkLR s c).colCount = s.colCount := rfl

theorem headUnlinkLR_size (s : matrixLinks) (c : Nat) :
    (headUnlinkLR s c).size = s.size := rfl

theorem headUnlinkLR_numRows (s : matrixLinks) (c : Nat) :
    (headUnlinkLR s c).numRows = s.numRows := rfl

theorem headUnlinkLR_numCols (s : matrixLinks) (c : Nat) :
    (headUnlinkLR s c).numCols = s.numCols := rfl

theorem headUnlinkLR_right_eq' (s : matrixLinks) (c : Nat) (hne : s.rightN c ≠ c) :
    (headUnlinkLR s c).right = s.right.set (s.leftN c) (s.rightN c) := by
  rw [headUnlinkLR_right_eq]
  have h1 : (setLeft s (s.rightN c) (s.leftN c)).leftN c = s.leftN c := by
    show (s.left.set (s.rightN c) (s.leftN c)).getD c 0 = s.left.getD c 0
    exact getD_set_ne _ _ _ _ _ hne
  have h2 : (setLeft s (s.rightN c) (s.leftN c)).rightN c = s.rightN c := rfl
  rw [h1, h2]

theorem headUnlinkLR_leftN (s : matrixLinks) (c : Nat) (hb : s.rightN c < s.left.length) :
    (headUnlinkLR s c).leftN = Function.update s.leftN (s.rightN c) (s.leftN c) := by
  have h0 : (headUnlinkLR s c).leftN =
      fun k => (s.left.set (s.rightN c) (s.leftN c)).getD k 0 := by
    funext k
    show (headUnlinkLR s c).left.getD k 0 = _
    rw [headUnlinkLR_left_eq]
  rw [h0]
  exact getD_set_fun _ _ _ _ hb

theorem headUnlinkLR_rightN (s : matrixLinks) (c : Nat) (hne : s.rightN c ≠ c)
    (hb : s.leftN c < s.right.length) :
    (headUnlinkLR s c).rightN = Function.update s.rightN (s.leftN c) (s.rightN c) := by
  have h0 : (headUnlinkLR s c).rightN =
      fun k => (s.right.set (s.leftN c) (s.rightN c)).getD k 0 := by
    funext k
    show (headUnlinkLR s c).right.getD k 0 = _
    rw [headUnlinkLR_right_eq' s c hne]
  rw [h0]
  exact getD_set_fun _ _ _ _ hb

/-- Relinking a header right after unlinking it restores the state exactly,
provided the header was consistently linked and not its own neighbor. -/
theorem headRelink_headUnlink (s : matrixLinks) (c : Nat)
    (hlr : s.leftN (s.rightN c) = c) (hrl : s.rightN (s.leftN c) = c)
    (hner : s.rightN c ≠ c) (hnel : s.leftN c ≠ c) :
    headRelinkLR (headUnlinkLR s c) c = s := by
  set t := headUnlinkLR s c with ht
  have htl : t.left = s.left.set (s.rightN c) (s.leftN c) := headUnlinkLR_left_eq s c
  have htr : t.right = s.right.set (s.leftN c) (s.rightN c) := headUnlinkLR_right_eq' s c hner
  have htrc : t.rightN c = s.rightN c := by
    show t.right.getD c 0 = s.right.getD c 0
    rw [htr]
    exact getD_set_ne _ _ _ _ _ hnel
  have hs2l : (setLeft t (t.rightN c) c).leftN c = t.leftN c := by
    show (t.left.set (t.rightN c) c).getD c 0 = t.left.getD c 0
    rw [htrc]
    exact getD_set_ne _ _ _ _ _ hner
  have htlc : t.leftN c = s.leftN c := by
    show t.left.getD c 0 = s.left.getD c 0
    rw [htl]
    exact getD_set_ne _ _ _ _ _ hner
  show setRight (setLeft t (t.rightN c) c) ((setLeft t (t.rightN c) c).leftN c) c = s
  rw [hs2l]
  refine matrixLinks_ext rfl rfl rfl ?_ ?_ rfl rfl rfl rfl rfl rfl
  · show (t.left.set (t.rightN c) c) = s.left
    rw [htrc, htl, List.set_set]
    exact set_getD_eq_self _ _ _ 0 hlr
  · show (t.right.set (t.leftN c) c) = s.right
    rw [htlc, htr, List.set_set]
    exact set_getD_eq_self _ _ _ 0 hrl

/-- Unlinking an active header from the root ring: the structural invariant
holds with that header removed from the active list, and the ring equations
needed to undo the unlink hold. -/
theorem headUnlink_core {s : matrixLinks} {d : WFData} {c : Nat}
    (core : DlxCore s d) (hc : c ∈ d.act) :
    DlxCore (headUnlinkLR s c) ⟨d.act.erase c, d.live, d.rowCells⟩ ∧
    s.rightN c ≠ c ∧ s.leftN c ≠ c ∧
    s.leftN (s.rightN c) = c ∧ s.rightN (s.leftN c) = c ∧
    s.leftN c ∈ rootNode :: d.act ∧ s.rightN c ∈ rootNode :: d.act := by
  obtain ⟨l, r, hdec⟩ := List.append_of_mem hc
  have hring := core.root
  rw [hdec] at hring
  obtain ⟨hring', hnp, hpn, hpne, hnne, hpmem, hnmem⟩ := ring_erase hring
  have hsub : ∀ a, a ∈ rootNode :: (l ++ r) → a ∈ rootNode :: d.act := by
    intro a ha
    rcases List.mem_cons.mp ha with rfl | ha
    · exact List.mem_cons_self ..
    · refine List.mem_cons_of_mem _ ?_
      rw [hdec]
      rcases List.mem_append.mp ha with ha | ha
      · exact List.mem_append.mpr (Or.inl ha)
      · exact List.mem_append.mpr (Or.inr (List.mem_cons_of_mem _ ha))
  have hlmem : s.leftN c ∈ rootNode :: d.act := hsub _ hpmem
  have hrmem : s.rightN c ∈ rootNode :: d.act := hsub _ hnmem
  have hllt : s.leftN c < s.size := by
    have := rootlike_le core _ hlmem
    have := core.len.cols
    omega
  have hrlt : s.rightN c < s.size := by
    have := rootlike_le core _ hrmem
    have := core.len.cols
    omega
  have hbl : s.rightN c < s.left.length := by
    rw [core.len.left]
    exact lt_of_lt_of_le hrlt core.len.size
  have hbr : s.leftN c < s.right.length := by
    rw [core.len.right]
    exact lt_of_lt_of_le hllt core.len.size
  have hLfun := headUnlinkLR_leftN s c hbl
  have hRfun := headUnlinkLR_rightN s c hnne hbr
  have herase : d.act.erase c = l ++ r := by
    have hndact : d.act.Nodup := (List.nodup_cons.mp core.root.2).2
    have hcl : c ∉ l := by
      rw [hdec, List.nodup_append] at hndact
      intro hmem
      exact hndact.2.2 hmem (List.mem_cons_self ..)
    rw [hdec, List.erase_append_right _ hcl, List.erase_cons_head]
  refine ⟨?_, hnne, hpne, hpn, hnp, hlmem, hrmem⟩
  refine ⟨?_, ?_, ?_, ?_, ?_, ?_, ?_, ?_⟩
  · refine ⟨?_, ?_, ?_, ?_, ?_, ?_, ?_, ?_, ?_, ?_⟩
    · rw [headUnlinkLR_left_eq, List.length_set]
      exact core.len.left
    · rw [headUnlinkLR_right_eq' s c hnne, List.length_set]
      exact core.len.right
    · exact core.len.up
    · exact core.len.down
    · exact core.len.colHead
    · exact core.len.rowOf
    · exact core.len.colIndex
    · exact core.len.colCount
    · exact core.len.size
    · exact core.len.cols
  · show IsRing (headUnlinkLR s c).rightN (headUnlinkLR s c).leftN rootNode (d.act.erase c)
    rw [herase, hRfun, hLfun]
    exact hring'
  · intro h hh
    exact core.actHdr h (List.mem_of_mem_erase hh)
  · exact ⟨fun h hh => core.col.ring h hh, fun h hh x hx => core.col.mem h hh x hx,
      fun h hh => core.col.cnt h hh⟩
  · intro i c0 cs hdecr
    show IsRing (headUnlinkLR s c).rightN (headUnlinkLR s c).leftN c0 cs
    rw [hRfun, hLfun]
    refine ring_update_irrelevant (core.rowRing i c0 cs hdecr) _ _ _ _ ?_ ?_
    · intro hmem
      have hcell : isCellIdx s (s.leftN c) := by
        have : s.leftN c ∈ d.rowCells i := by
          rw [hdecr]
          exact hmem
        exact (core.rowMem i _ this).1
      have := rootlike_le core _ hlmem
      have := hcell.1
      omega
    · intro hmem
      have hcell : isCellIdx s (s.rightN c) := by
        have : s.rightN c ∈ d.rowCells i := by
          rw [hdecr]
          exact hmem
        exact (core.rowMem i _ this).1
      have := rootlike_le core _ hrmem
      have := hcell.1
      omega
  · intro i x hx
    exact core.rowMem i x hx
  · intro h hh x hx
    exact core.cellRow h hh x hx
  · intro i
    exact core.rowCols i

/-! ## Frame lemmas for splice-in sequences -/

theorem applyIns_left (js : List Nat) : ∀ s, (applyIns s js).left = s.left := by
  induction js with
  | nil => intro s; rfl
  | cons j js ih => intro s; exact ih (spliceInUD s j)

theorem applyIns_right (js : List Nat) : ∀ s, (applyIns s js).right = s.right := by
  induction js with
  | nil => intro s; rfl
  | cons j js ih => intro s; exact ih (spliceInUD s j)

theorem applyIns_size (js : List Nat) : ∀ s, (applyIns s js).size = s.size := by
  induction js with
  | nil => intro s; rfl
  | cons j js ih => intro s; exact ih (spliceInUD s j)

theorem applyIns_leftN (js : List Nat) (s : matrixLinks) :
    (applyIns s js).leftN = s.leftN := by
  funext k
  show (applyIns s js).left.getD k 0 = s.left.getD k 0
  rw [applyIns_left]

theorem applyIns_rightN (js : List Nat) (s : matrixLinks) :
    (applyIns s js).rightN = s.rightN := by
  funext k
  show (applyIns s js).right.getD k 0 = s.right.getD k 0
  rw [applyIns_right]

end Gox

namespace Gox

theorem spliceOutUD_rightN (s : matrixLinks) (j : Nat) :
    (spliceOutUD s j).rightN = s.rightN := by
  funext k
  show (spliceOutUD s j).right.getD k 0 = s.right.getD k 0
  rw [spliceOutUD_right]

theorem spliceOutUD_leftN (s : matrixLinks) (j : Nat) :
    (spliceOutUD s j).leftN = s.leftN := by
  funext k
  show (spliceOutUD s j).left.getD k 0 = s.left.getD k 0
  rw [spliceOutUD_left]

theorem spliceOutUD_colHeadN (s : matrixLinks) (j : Nat) :
    (spliceOutUD s j).colHeadN = s.colHeadN := by
  funext k
  show (spliceOutUD s j).colHead.getD k 0 = s.colHead.getD k 0
  rw [spliceOutUD_colHead]

theorem spliceOutUD_rowOfN (s : matrixLinks) (j : Nat) :
    (spliceOutUD s j).rowOfN = s.rowOfN := by
  funext k
  show (spliceOutUD s j).rowOf.getD k 0 = s.rowOf.getD k 0
  rw [spliceOutUD_rowOf]

theorem spliceInUD_leftN (s : matrixLinks) (j : Nat) :
    (spliceInUD s j).leftN = s.leftN := by
  funext k
  show (spliceInUD s j).left.getD k 0 = s.left.getD k 0
  rw [spliceInUD_left]

theorem spliceInUD_rightN (s : matrixLinks) (j : Nat) :
    (spliceInUD s j).rightN = s.rightN := by
  funext k
  show (spliceInUD s j).right.getD k 0 = s.right.getD k 0
  rw [spliceInUD_right]

theorem colWF_live_nodup {s : matrixLinks} {live : Nat → List Nat}
    (hw : ColWF s live) {h : Nat} (hh : isHeaderIdx s h) : (live h).Nodup :=
  (List.nodup_cons.mp (hw.ring h hh).2).2

/-! ## The cells removed by a sequence of splice-outs -/

/-- Pointwise effect on the live-cell family of splicing out the cells `ys`,
each from its own column. -/
def eraseCells (ch : Nat → Nat) : List Nat → (Nat → List Nat) → (Nat → List Nat)
  | [], live => live
  | y :: ys, live => eraseCells ch ys (Function.update live (ch y) ((live (ch y)).erase y))

theorem eraseCells_subset (ch : Nat → Nat) : ∀ (ys : List Nat) (live : Nat → List Nat)
    (h z : Nat), z ∈ eraseCells ch ys live h → z ∈ live h := by
  intro ys
  induction ys with
  | nil => intro live h z hz; exact hz
  | cons y ys ih =>
    intro live h z hz
    have hz' := ih _ h z hz
    by_cases he : h = ch y
    · subst he
      rw [Function.update_same] at hz'
      exact List.mem_of_mem_erase hz'
    · rwa [Function.update_noteq he] at hz'

theorem eraseCells_mem_of_not_mem (ch : Nat → Nat) : ∀ (ys : List Nat)
    (live : Nat → List Nat) (h z : Nat), z ∈ live h → z ∉ ys →
    z ∈ eraseCells ch ys live h := by
  intro ys
  induction ys with
  | nil => intro live h z hz _; exact hz
  | cons y ys ih =>
    intro live h z hz hzys
    refine ih _ h z ?_ (fun hmem => hzys (List.mem_cons_of_mem _ hmem))
    by_cases he : h = ch y
    · subst he
      rw [Function.update_same]
      refine (List.mem_erase_of_ne ?_).mpr hz
      intro hzy
      exact hzys (by rw [hzy]; exact List.mem_cons_self ..)
    · rwa [Function.update_noteq he]

theorem eraseCells_frame (ch : Nat → Nat) : ∀ (ys : List Nat) (live : Nat → List Nat)
    (h : Nat), (∀ y ∈ ys, ch y ≠ h) → eraseCells ch ys live h = live h := by
  intro ys
  induction ys with
  | nil => intro live h _; rfl
  | cons y ys ih =>
    intro live h hne
    show eraseCells ch ys (Function.update live (ch y) ((live (ch y)).erase y)) h = live h
    rw [ih _ h (fun y' hy' => hne y' (List.mem_cons_of_mem _ hy'))]
    exact Function.update_noteq (fun he => hne y (List.mem_cons_self ..) he.symm) _ _

theorem eraseCells_not_mem_self (ch : Nat → Nat) : ∀ (ys : List Nat)
    (live : Nat → List Nat) (z : Nat), z ∈ ys → (∀ y ∈ ys, y ∈ live (ch y)) →
    (ys.map ch).Nodup → (∀ y ∈ ys, (live (ch y)).Nodup) →
    z ∉ eraseCells ch ys live (ch z) := by
  intro ys
  induction ys with
  | nil => intro live z hz _ _ _; exact absurd hz (List.not_mem_nil z)
  | cons y ys ih =>
    intro live z hz hlive hnd hnds
    have hndtail : (ys.map ch).Nodup := (List.nodup_cons.mp (by simpa using hnd)).2
    have hchy : ch y ∉ ys.map ch := (List.nodup_cons.mp (by simpa using hnd)).1
    rcases List.mem_cons.mp hz with rfl | hz'
    · intro hmem
      have hz1 : z ∈ Function.update live (ch z) ((live (ch z)).erase z) (ch z) :=
        eraseCells_subset ch ys _ _ z hmem
      rw [Function.update_same] at hz1
      exact (hnds z (List.mem_cons_self ..)).not_mem_erase hz1
    · refine ih _ z hz' ?_ hndtail ?_
      · intro y' hy'
        have hne : ch y' ≠ ch y := by
          intro he
          exact hchy (he ▸ List.mem_map_of_mem ch hy')
        rw [Function.update_noteq hne]
        exact hlive y' (List.mem_cons_of_mem _ hy')
      · intro y' hy'
        have hne : ch y' ≠ ch y := by
          intro he
          exact hchy (he ▸ List.mem_map_of_mem ch hy')
        rw [Function.update_noteq hne]
        exact hnds y' (List.mem_cons_of_mem _ hy')

/-! ## The inner loop of `cover` as a splice-out sequence -/

theorem coverRow_spec : ∀ (ys : List Nat) (s : matrixLinks) (live : Nat → List Nat)
    (rn j fuel : Nat), lenWF s → ColWF s live → ys.length < fuel → j = ys.headD rn →
    List.Chain' (fun a b => s.rightN a = b) (ys ++ [rn]) →
    (∀ y ∈ ys, y ≠ rn) →
    (∀ y ∈ ys, isHeaderIdx s (s.colHeadN y) ∧ y ∈ live (s.colHeadN y)) →
    (ys.map s.colHeadN).Nodup →
    coverRow s rn j fuel = applyOuts s ys ∧ GoodSplices s ys ∧
    lenWF (applyOuts s ys) ∧ ColWF (applyOuts s ys) (eraseCells s.colHeadN ys live) ∧
    (∀ i, (∀ y ∈ ys, i ∉ s.colHeadN y :: live (s.colHeadN y)) →
      (applyOuts s ys).downN i = s.downN i ∧ (applyOuts s ys).upN i = s.upN i) ∧
    (∀ h, (∀ y ∈ ys, s.colHeadN y ≠ h) →
      (applyOuts s ys).colCountN h = s.colCountN h) := by
  intro ys
  induction ys with
  | nil =>
    intro s live rn j fuel hlen hw hf hj hch hne hmem hnd
    rw [List.headD_nil] at hj
    subst hj
    match fuel, hf with
    | fuel+1, _ =>
      refine ⟨?_, trivial, hlen, hw, fun i _ => ⟨rfl, rfl⟩, fun h _ => rfl⟩
      show (if j = j then s
        else coverRow (spliceOutUD s j) j ((spliceOutUD s j).rightN j) fuel) =
          applyOuts s []
      rw [if_pos rfl]
      rfl
  | cons y ys ih =>
    intro s live rn j fuel hlen hw hf hj hch hne hmem hnd
    rw [List.headD_cons] at hj
    have hj' : y = j := hj.symm
    subst hj'
    match fuel, hf with
    | fuel+1, hf =>
      have hynr : y ≠ rn := hne y (List.mem_cons_self ..)
      obtain ⟨hh, hy⟩ := hmem y (List.mem_cons_self ..)
      obtain ⟨hw', hlen', h4, hframe1, hcnt1⟩ := spliceOut_step hlen hw hh rfl hy
      have hndc : s.colHeadN y ∉ ys.map s.colHeadN ∧ (ys.map s.colHeadN).Nodup := by
        constructor
        · exact (List.nodup_cons.mp (by simpa using hnd)).1
        · exact (List.nodup_cons.mp (by simpa using hnd)).2
      have hchfun : (spliceOutUD s y).colHeadN = s.colHeadN := spliceOutUD_colHeadN s y
      have hrfun : (spliceOutUD s y).rightN = s.rightN := spliceOutUD_rightN s y
      have hlive1 : ∀ y' ∈ ys, Function.update live (s.colHeadN y)
          ((live (s.colHeadN y)).erase y) (s.colHeadN y') = live (s.colHeadN y') := by
        intro y' hy'
        refine Function.update_noteq ?_ _ _
        intro he
        exact hndc.1 (he ▸ List.mem_map_of_mem s.colHeadN hy')
      have hnext : s.rightN y = ys.headD rn := by
        cases ys with
        | nil => simpa using (List.chain'_cons.mp hch).1
        | cons z zs => simpa using (List.chain'_cons.mp hch).1
      have hih := ih (spliceOutUD s y)
        (Function.update live (s.colHeadN y) ((live (s.colHeadN y)).erase y))
        rn ((spliceOutUD s y).rightN y) fuel hlen' hw'
        (by simpa using hf)
        (by rw [hrfun, hnext])
        (by rw [hrfun]; exact hch.tail)
        (fun y' hy' => hne y' (List.mem_cons_of_mem _ hy'))
        (by
          intro y' hy'
          rw [hchfun, hlive1 y' hy']
          exact ⟨(hmem y' (List.mem_cons_of_mem _ hy')).1,
            (hmem y' (List.mem_cons_of_mem _ hy')).2⟩)
        (by rw [hchfun]; exact hndc.2)
      obtain ⟨hrun, hgs, hlen2, hw2, hframe2, hcnt2⟩ := hih
      have hstep : coverRow s rn y (fuel+1) =
          coverRow (spliceOutUD s y) rn ((spliceOutUD s y).rightN y) fuel := by
        show (if y = rn then s
          else coverRow (spliceOutUD s y) rn ((spliceOutUD s y).rightN y) fuel) = _
        rw [if_neg hynr]
      refine ⟨?_, ⟨h4, hgs⟩, hlen2, ?_, ?_, ?_⟩
      · rw [hstep, hrun]
        rfl
      · show ColWF (applyOuts (spliceOutUD s y) ys) _
        have hec : eraseCells s.colHeadN (y :: ys) live =
            eraseCells (spliceOutUD s y).colHeadN ys
              (Function.update live (s.colHeadN y) ((live (s.colHeadN y)).erase y)) := by
          rw [hchfun]
          rfl
        rw [hec]
        exact hw2
      · intro i hi
        have hi1 : i ∉ s.colHeadN y :: live (s.colHeadN y) := hi y (List.mem_cons_self ..)
        have hrest : ∀ y' ∈ ys, i ∉ (spliceOutUD s y).colHeadN y' ::
            Function.update live (s.colHeadN y) ((live (s.colHeadN y)).erase y)
              ((spliceOutUD s y).colHeadN y') := by
          intro y' hy'
          rw [hchfun, hlive1 y' hy']
          exact hi y' (List.mem_cons_of_mem _ hy')
        obtain ⟨hd2, hu2⟩ := hframe2 i hrest
        obtain ⟨hd1, hu1⟩ := hframe1 i hi1
        refine ⟨?_, ?_⟩
        · show (applyOuts (spliceOutUD s y) ys).downN i = _
          rw [hd2, hd1]
        · show (applyOuts (spliceOutUD s y) ys).upN i = _
          rw [hu2, hu1]
      · intro h hne2
        have hrest : ∀ y' ∈ ys, (spliceOutUD s y).colHeadN y' ≠ h := by
          intro y' hy'
          rw [hchfun]
          exact hne2 y' (List.mem_cons_of_mem _ hy')
        have h2 := hcnt2 h hrest
        have h1 := hcnt1 h (fun he => hne2 y (List.mem_cons_self ..) he.symm)
        show (applyOuts (spliceOutUD s y) ys).colCountN h = _
        rw [h2, h1]

/-! ## The inner loop of `uncover` as a splice-in sequence -/

theorem uncoverRow_walk : ∀ (zs : List Nat) (s : matrixLinks) (rn j fuel : Nat),
    zs.length < fuel → j = zs.headD rn →
    List.Chain' (fun a b => s.leftN a = b) (zs ++ [rn]) →
    (∀ z ∈ zs, z ≠ rn) →
    uncoverRow s rn j fuel = applyIns s zs := by
  intro zs
  induction zs with
  | nil =>
    intro s rn j fuel hf hj _ _
    rw [List.headD_nil] at hj
    subst hj
    match fuel, hf with
    | fuel+1, _ =>
      show (if j = j then s
        else uncoverRow (spliceInUD s j) j ((spliceInUD s j).leftN j) fuel) =
          applyIns s []
      rw [if_pos rfl]
      rfl
  | cons z zs ih =>
    intro s rn j fuel hf hj hch hne
    rw [List.headD_cons] at hj
    have hj' : z = j := hj.symm
    subst hj'
    match fuel, hf with
    | fuel+1, hf =>
      have hznr : z ≠ rn := hne z (List.mem_cons_self ..)
      have hlfun : (spliceInUD s z).leftN = s.leftN := spliceInUD_leftN s z
      have hnext : s.leftN z = zs.headD rn := by
        cases zs with
        | nil => simpa using (List.chain'_cons.mp hch).1
        | cons w ws => simpa using (List.chain'_cons.mp hch).1
      have hstep : uncoverRow s rn z (fuel+1) =
          uncoverRow (spliceInUD s z) rn ((spliceInUD s z).leftN z) fuel := by
        show (if z = rn then s
          else uncoverRow (spliceInUD s z) rn ((spliceInUD s z).leftN z) fuel) = _
        rw [if_neg hznr]
      rw [hstep, ih (spliceInUD s z) rn _ fuel (by simpa using hf)
        (by rw [hlfun, hnext]) (by rw [hlfun]; exact hch.tail)
        (fun z' hz' => hne z' (List.mem_cons_of_mem _ hz'))]
      rfl

/-! ## The outer loop of `uncover`, driven by an explicit walk -/

/-- A run of the outer `uncover` loop: from state `s` it processes the rows
headed by the cells in `ws` in order, ending in state `u`; after the last
element the up pointer reads `p`. -/
inductive UncoverWalk (c : Nat) : matrixLinks → List Nat → Nat → matrixLinks → Prop where
  | nil (s : matrixLinks) (p : Nat) : UncoverWalk c s [] p s
  | cons (s : matrixLinks) (rn : Nat) (rest : List Nat) (p : Nat) (t u : matrixLinks) :
      rn ≠ c → uncoverRow s rn (s.leftN rn) s.size = t →
      t.upN rn = rest.headD p → UncoverWalk c t rest p u →
      UncoverWalk c s (rn :: rest) p u

theorem UncoverWalk.append_walk {c : Nat} : ∀ {ws : List Nat} {s t : matrixLinks}
    {ws' : List Nat} {u : matrixLinks} {p : Nat},
    UncoverWalk c s ws (ws'.headD p) t → UncoverWalk c t ws' p u →
    UncoverWalk c s (ws ++ ws') p u := by
  intro ws
  induction ws with
  | nil =>
    intro s t ws' u p h1 h2
    cases h1
    exact h2
  | cons rn rest ih =>
    intro s t ws' u p h1 h2
    cases h1 with
    | cons _ _ _ _ t1 _ hne hrow hup hrest =>
      refine UncoverWalk.cons _ _ _ _ _ _ hne hrow ?_ (ih hrest h2)
      rw [hup]
      cases rest with
      | nil => rfl
      | cons a l => rfl

theorem uncoverCol_eq_of_walk {c : Nat} : ∀ {ws : List Nat} {s u : matrixLinks}
    (fuel : Nat), ws.length < fuel → UncoverWalk c s ws c u →
    uncoverCol s c (ws.headD c) fuel = u := by
  intro ws
  induction ws with
  | nil =>
    intro s u fuel hf hw
    cases hw
    match fuel, hf with
    | fuel+1, _ => simp [uncoverCol]
  | cons rn rest ih =>
    intro s u fuel hf hw
    cases hw with
    | cons _ _ _ _ t _ hne hrow hup hrest =>
      match fuel, hf with
      | fuel+1, hf =>
        rw [List.headD_cons]
        show (if rn = c then s
          else uncoverCol (uncoverRow s rn (s.leftN rn) s.size) c
            ((uncoverRow s rn (s.leftN rn) s.size).upN rn) fuel) = u
        rw [if_neg hne, hrow, hup]
        exact ih fuel (by simpa using hf) hrest

end Gox

namespace Gox

theorem applyOuts_numRows (js : List Nat) : ∀ s, (applyOuts s js).numRows = s.numRows := by
  induction js with
  | nil => intro s; rfl
  | cons j js ih => intro s; exact ih (spliceOutUD s j)

theorem applyOuts_numCols (js : List Nat) : ∀ s, (applyOuts s js).numCols = s.numCols := by
  induction js with
  | nil => intro s; rfl
  | cons j js ih => intro s; exact ih (spliceOutUD s j)

theorem applyOuts_colHeadN (js : List Nat) (s : matrixLinks) :
    (applyOuts s js).colHeadN = s.colHeadN := by
  funext k
  show (applyOuts s js).colHead.getD k 0 = s.colHead.getD k 0
  rw [applyOuts_colHead]

theorem applyOuts_rowOfN (js : List Nat) (s : matrixLinks) :
    (applyOuts s js).rowOfN = s.rowOfN := by
  funext k
  show (applyOuts s js).rowOf.getD k 0 = s.rowOf.getD k 0
  rw [applyOuts_rowOf]

theorem getLast?_eq_getLastD (a : Nat) (l : List Nat) :
    (a :: l).getLast? = some (l.getLastD a) := by
  induction l generalizing a with
  | nil => rfl
  | cons b l ih => rw [List.getLast?_cons_cons, ih b, List.getLastD_cons]

theorem getLastD_append_single (l : List Nat) (a d : Nat) :
    (l ++ [a]).getLastD d = a := by
  induction l generalizing d with
  | nil => rfl
  | cons b l ih => rw [List.cons_append, List.getLastD_cons, ih]

/-- Neighbor values at a given position of a ring. -/
theorem chain_next_at {next prev : Nat → Nat} {x0 : Nat} {xs : List Nat}
    (h : IsRing next prev x0 xs) (pre post : List Nat) (a : Nat)
    (hdec : xs = pre ++ a :: post) :
    next a = post.headD x0 ∧ prev a = pre.getLastD x0 := by
  obtain ⟨hch, _⟩ := h
  rw [hdec] at hch
  have hcyc : x0 :: (pre ++ a :: post) ++ [x0] = (x0 :: pre) ++ (a :: (post ++ [x0])) := by
    simp
  rw [hcyc, List.chain'_append] at hch
  obtain ⟨hA, hB, hAB⟩ := hch
  constructor
  · have hhead : (post ++ [x0]).head? = some (post.headD x0) := by
      cases post <;> simp
    have hstep : ringStep next prev a (post.headD x0) :=
      (List.chain'_cons'.mp hB).1 (post.headD x0) (by rw [hhead]; rfl)
    exact hstep.1
  · have hlast : (x0 :: pre).getLast? = some (pre.getLastD x0) := getLast?_eq_getLastD x0 pre
    have hstep : ringStep next prev (pre.getLastD x0) a :=
      hAB (pre.getLastD x0) (by rw [hlast]; rfl) a rfl
    exact hstep.2

theorem isHeaderIdx_of_eq {s t : matrixLinks} (hnc : t.numCols = s.numCols) {h : Nat}
    (hh : isHeaderIdx s h) : isHeaderIdx t h := ⟨hh.1, hnc ▸ hh.2⟩

theorem isCellIdx_of_eq {s t : matrixLinks} (hnc : t.numCols = s.numCols)
    (hsz : t.size = s.size) {x : Nat} (hx : isCellIdx s x) : isCellIdx t x :=
  ⟨hnc ▸ hx.1, hsz ▸ hx.2⟩

/-- Live cells of all columns other than the covered one whose row has a cell
in the part of the covered column's ring that the `cover` loop has not yet
processed. -/
def TodoMates (s : matrixLinks) (d : WFData) (c : Nat) (todo : List Nat) : Prop :=
  ∀ rn ∈ todo, ∀ y ∈ d.rowCells (s.rowOfN rn),
    y = rn ∨ (s.colHeadN y ≠ c ∧ s.colHeadN y ∈ d.act ∧ y ∈ d.live (s.colHeadN y))

/-- The w4 invariant, weakened on rows still to be removed by the running
`cover` loop. -/
def W4Except (s : matrixLinks) (d : WFData) (todo : List Nat) : Prop :=
  ∀ h ∈ d.act, ∀ x ∈ d.live h, s.rowOfN x ∈ todo.map s.rowOfN ∨
    ∀ y ∈ d.rowCells (s.rowOfN x), s.colHeadN y ∈ d.act ∧ y ∈ d.live (s.colHeadN y)

end Gox

namespace Gox

set_option maxHeartbeats 1600000 in
/-- The outer loop of `cover`, run over the unprocessed suffix `todo` of the
covered column's ring: it performs exactly the splice-outs of the loop body,
preserves the structural invariant with the removed rows' cells dropped from
the live families, re-establishes the w4 invariant once the suffix is
exhausted, leaves the covered column's ring and all static fields untouched,
and admits an `UncoverWalk` that undoes it row by row. -/
theorem coverCol_spec (c : Nat) : ∀ (todo done : List Nat) (s : matrixLinks) (d : WFData)
    (fuel : Nat), DlxCore s d → isHeaderIdx s c → c ∉ d.act →
    d.live c = done ++ todo →
    TodoMates s d c todo → W4Except s d todo → todo.length < fuel →
    ∃ live2,
      DlxCore (coverCol s c (todo.headD c) fuel) ⟨d.act, live2, d.rowCells⟩ ∧
      DlxW4 (coverCol s c (todo.headD c) fuel) ⟨d.act, live2, d.rowCells⟩ ∧
      live2 c = d.live c ∧
      (∀ h z, z ∈ live2 h → z ∈ d.live h) ∧
      (∀ i, i ∈ c :: d.live c →
        (coverCol s c (todo.headD c) fuel).downN i = s.downN i ∧
        (coverCol s c (todo.headD c) fuel).upN i = s.upN i) ∧
      (coverCol s c (todo.headD c) fuel).left = s.left ∧
      (coverCol s c (todo.headD c) fuel).right = s.right ∧
      (coverCol s c (todo.headD c) fuel).colHead = s.colHead ∧
      (coverCol s c (todo.headD c) fuel).rowOf = s.rowOf ∧
      (coverCol s c (todo.headD c) fuel).size = s.size ∧
      (coverCol s c (todo.headD c) fuel).numRows = s.numRows ∧
      (coverCol s c (todo.headD c) fuel).numCols = s.numCols ∧
      UncoverWalk c (coverCol s c (todo.headD c) fuel) todo.reverse (done.getLastD c) s := by
  intro todo
  induction todo with
  | nil =>
    intro done s d fuel hcore hc hcact hdec htm hw4 hf
    match fuel, hf with
    | fuel+1, _ =>
      rw [List.headD_nil]
      have hrunc : coverCol s c c (fuel+1) = s := by
        show (if c = c then s
          else coverCol (coverRow s c (s.rightN c) s.size) c
            ((coverRow s c (s.rightN c) s.size).downN c) fuel) = s
        rw [if_pos rfl]
      rw [hrunc]
      refine ⟨d.live, hcore, ?_, rfl, fun h z hz => hz, fun i _ => ⟨rfl, rfl⟩,
        rfl, rfl, rfl, rfl, rfl, rfl, rfl, ?_⟩
      · intro h hh x hx y hy
        rcases hw4 h hh x hx with hmem | hfull
        · simp at hmem
        · exact hfull y hy
      · rw [List.reverse_nil]
        exact UncoverWalk.nil s _
  | cons rn todo' ih =>
    intro done s d fuel hcore hc hcact hdec htm hw4 hf
    match fuel, hf with
    | fuel+1, hf =>
      rw [List.headD_cons]
      have hw := hcore.col
      have hrnlive : rn ∈ d.live c := by
        rw [hdec]
        exact List.mem_append.mpr (Or.inr (List.mem_cons_self ..))
      obtain ⟨hrncell, hrnch⟩ := hw.mem c hc rn hrnlive
      have hrnc : rn ≠ c := by
        have h1 := hrncell.1
        have h2 := hc.2
        omega
      have hrnrow : rn ∈ d.rowCells (s.rowOfN rn) := hcore.cellRow c hc rn hrnlive
      rcases hrc : d.rowCells (s.rowOfN rn) with _ | ⟨c0, cs⟩
      · rw [hrc] at hrnrow
        exact absurd hrnrow (List.not_mem_nil rn)
      have hrow_ring := hcore.rowRing (s.rowOfN rn) c0 cs hrc
      have hrn0 : rn ∈ c0 :: cs := by rw [← hrc]; exact hrnrow
      obtain ⟨ys, hychain, hynd, hyperm⟩ := ring_rotate hrow_ring hrn0
      have hysub : ∀ y ∈ ys, y ∈ d.rowCells (s.rowOfN rn) := by
        intro y hy
        rw [hrc]
        exact hyperm.mem_iff.mp (List.mem_cons_of_mem _ hy)
      have hynotrn : ∀ y ∈ ys, y ≠ rn := by
        intro y hy he
        exact (List.nodup_cons.mp hynd).1 (he ▸ hy)
      have hmates : ∀ y ∈ ys,
          s.colHeadN y ≠ c ∧ s.colHeadN y ∈ d.act ∧ y ∈ d.live (s.colHeadN y) := by
        intro y hy
        rcases htm rn (List.mem_cons_self ..) y (hysub y hy) with he | hfacts
        · exact absurd he (hynotrn y hy)
        · exact hfacts
      have hyheader : ∀ y ∈ ys, isHeaderIdx s (s.colHeadN y) :=
        fun y hy => (hcore.rowMem _ y (hysub y hy)).2.2
      have hycell : ∀ y ∈ ys, isCellIdx s y :=
        fun y hy => (hcore.rowMem _ y (hysub y hy)).1
      have hmapnd : ((rn :: ys).map s.colHeadN).Nodup := by
        have h1 := hcore.rowCols (s.rowOfN rn)
        rw [hrc] at h1
        exact ((hyperm.map s.colHeadN).nodup_iff).mpr h1
      have hysnd : (ys.map s.colHeadN).Nodup :=
        (List.nodup_cons.mp (by simpa using hmapnd)).2
      have hnextchain : List.Chain' (fun a b => s.rightN a = b) (ys ++ [rn]) :=
        (chain_next_of_chain _ _ _ hychain).tail
      have hjval : s.rightN rn = ys.headD rn := by
        have h1 := chain_next_of_chain _ _ _ hychain
        cases ys with
        | nil => simpa using (List.chain'_cons.mp h1).1
        | cons z zs => simpa using (List.chain'_cons.mp h1).1
      have hysfuel : ys.length < s.size := by
        have hnodes : ∀ x ∈ rn :: ys, x < s.size := by
          intro x hx
          rcases List.mem_cons.mp hx with rfl | hx
          · exact hrncell.2
          · exact (hycell x hx).2
        have hle := nodup_all_lt_length_le hynd hnodes
        simp at hle
        omega
      have hmemY : ∀ y ∈ ys, isHeaderIdx s (s.colHeadN y) ∧ y ∈ d.live (s.colHeadN y) :=
        fun y hy => ⟨hyheader y hy, (hmates y hy).2.2⟩
      obtain ⟨hrun, hgs, hlen1, hw1, hframe1, hcnt1⟩ :=
        coverRow_spec ys s d.live rn (s.rightN rn) s.size hcore.len hw hysfuel hjval
          hnextchain hynotrn hmemY hysnd
      have hrfun : (applyOuts s ys).rightN = s.rightN := applyOuts_rightN ys s
      have hlfun : (applyOuts s ys).leftN = s.leftN := applyOuts_leftN ys s
      have hchfun : (applyOuts s ys).colHeadN = s.colHeadN := applyOuts_colHeadN ys s
      have hrowfun : (applyOuts s ys).rowOfN = s.rowOfN := applyOuts_rowOfN ys s
      have hsz : (applyOuts s ys).size = s.size := applyOuts_size ys s
      have hnc : (applyOuts s ys).numCols = s.numCols := applyOuts_numCols ys s
      have hnr : (applyOuts s ys).numRows = s.numRows := applyOuts_numRows ys s
      have hlive1c : eraseCells s.colHeadN ys d.live c = d.live c :=
        eraseCells_frame _ ys d.live c (fun y hy => (hmates y hy).1)
      have hlive1sub : ∀ h z, z ∈ eraseCells s.colHeadN ys d.live h → z ∈ d.live h :=
        fun h z hz => eraseCells_subset _ ys d.live h z hz
      have hcore1 : DlxCore (applyOuts s ys)
          ⟨d.act, eraseCells s.colHeadN ys d.live, d.rowCells⟩ := by
        refine ⟨hlen1, ?_, ?_, hw1, ?_, ?_, ?_, ?_⟩
        · show IsRing (applyOuts s ys).rightN (applyOuts s ys).leftN rootNode d.act
          rw [hrfun, hlfun]
          exact hcore.root
        · intro h hh
          exact isHeaderIdx_of_eq hnc (hcore.actHdr h hh)
        · intro i a as hdeci
          show IsRing (applyOuts s ys).rightN (applyOuts s ys).leftN a as
          rw [hrfun, hlfun]
          exact hcore.rowRing i a as hdeci
        · intro i x hx
          obtain ⟨h1, h2, h3⟩ := hcore.rowMem i x hx
          refine ⟨isCellIdx_of_eq hnc hsz h1, ?_, ?_⟩
          · rw [hrowfun]
            exact h2
          · rw [hchfun]
            exact isHeaderIdx_of_eq hnc h3
        · intro h hh x hx
          rw [hrowfun]
          exact hcore.cellRow h (isHeaderIdx_of_eq hnc.symm hh) x (hlive1sub h x hx)
        · intro i
          rw [hchfun]
          exact hcore.rowCols i
      have hdistinctrows : ∀ rn' ∈ todo', s.rowOfN rn' ≠ s.rowOfN rn := by
        intro rn' hrn' he
        have hrn'live : rn' ∈ d.live c := by
          rw [hdec]
          exact List.mem_append.mpr (Or.inr (List.mem_cons_of_mem _ hrn'))
        have hrn'row : rn' ∈ d.rowCells (s.rowOfN rn') := hcore.cellRow c hc rn' hrn'live
        have hrnne : rn' ≠ rn := by
          have hndc := colWF_live_nodup hw hc
          rw [hdec] at hndc
          have hrnnotin : rn ∉ todo' :=
            (List.nodup_cons.mp (List.nodup_append.mp hndc).2.1).1
          intro he2
          exact hrnnotin (he2 ▸ hrn')
        have hch' : s.colHeadN rn' = c := (hw.mem c hc rn' hrn'live).2
        have h1 : rn' ∈ d.rowCells (s.rowOfN rn) := he ▸ hrn'row
        exact hrnne (eq_of_nodup_map (hcore.rowCols (s.rowOfN rn)) h1 hrnrow
          (by rw [hch', hrnch]))
      have htm1 : TodoMates (applyOuts s ys)
          ⟨d.act, eraseCells s.colHeadN ys d.live, d.rowCells⟩ c todo' := by
        intro rn' hrn' y hy
        rw [hrowfun] at hy
        rcases htm rn' (List.mem_cons_of_mem _ hrn') y hy with he | ⟨hne, hact, hlive⟩
        · exact Or.inl he
        · refine Or.inr ⟨?_, ?_, ?_⟩
          · rw [hchfun]
            exact hne
          · rw [hchfun]
            exact hact
          · show y ∈ eraseCells s.colHeadN ys d.live ((applyOuts s ys).colHeadN y)
            rw [hchfun]
            refine eraseCells_mem_of_not_mem _ ys d.live _ y hlive ?_
            intro hyys
            have h1 := (hcore.rowMem _ y (hysub y hyys)).2.1
            have h2 := (hcore.rowMem _ y hy).2.1
            exact hdistinctrows rn' hrn' (by rw [← h2, h1])
      have hx_in_ys_of_same_row : ∀ h, h ∈ d.act → ∀ x ∈ d.live h,
          s.rowOfN x = s.rowOfN rn → x ∈ ys := by
        intro h hh x hx he
        have hhead := hcore.actHdr h hh
        have hxrow : x ∈ d.rowCells (s.rowOfN x) := hcore.cellRow h hhead x hx
        have hx0 : x ∈ c0 :: cs := by
          rw [← hrc, ← he]
          exact hxrow
        have hxne : x ≠ rn := by
          intro he2
          subst he2
          have hne : h ≠ c := fun he3 => hcact (he3 ▸ hh)
          have hch1 := (hw.mem h hhead x hx).2
          rw [hrnch] at hch1
          exact hne hch1.symm
        have hx1 : x ∈ rn :: ys := hyperm.mem_iff.mpr hx0
        rcases List.mem_cons.mp hx1 with he2 | h2
        · exact absurd he2 hxne
        · exact h2
      have hw41 : W4Except (applyOuts s ys)
          ⟨d.act, eraseCells s.colHeadN ys d.live, d.rowCells⟩ todo' := by
        intro h hh x hx
        have hxold : x ∈ d.live h := hlive1sub h x hx
        have hhs : isHeaderIdx s h := hcore.actHdr h hh
        have hxnotys : x ∉ ys := by
          intro hxys
          have hchx : s.colHeadN x = h := (hw.mem h hhs x hxold).2
          have hnot := eraseCells_not_mem_self s.colHeadN ys d.live x hxys
            (fun y hy => (hmemY y hy).2) hysnd
            (fun y hy => colWF_live_nodup hw (hyheader y hy))
          rw [hchx] at hnot
          exact hnot hx
        rcases hw4 h hh x hxold with hmem | hfull
        · rw [List.map_cons] at hmem
          rcases List.mem_cons.mp hmem with he | hmem'
          · exact absurd (hx_in_ys_of_same_row h hh x hxold he) hxnotys
          · refine Or.inl ?_
            rw [hrowfun]
            exact hmem'
        · refine Or.inr ?_
          intro y hy
          rw [hrowfun] at hy
          obtain ⟨hyact, hylive⟩ := hfull y hy
          refine ⟨?_, ?_⟩
          · rw [hchfun]
            exact hyact
          · show y ∈ eraseCells s.colHeadN ys d.live ((applyOuts s ys).colHeadN y)
            rw [hchfun]
            refine eraseCells_mem_of_not_mem _ ys d.live _ y hylive ?_
            intro hyys
            have h1 := (hcore.rowMem _ y (hysub y hyys)).2.1
            have h2 := (hcore.rowMem _ y hy).2.1
            exact hxnotys (hx_in_ys_of_same_row h hh x hxold (by rw [← h2, h1]))
      obtain ⟨live2, hcore2, hw42, hlive2c, hlive2sub, hframe2, hl2, hr2, hchl2, hro2,
          hsz2, hnr2, hnc2, hwalk2⟩ :=
        ih (done ++ [rn]) (applyOuts s ys)
          ⟨d.act, eraseCells s.colHeadN ys d.live, d.rowCells⟩ fuel hcore1
          (isHeaderIdx_of_eq hnc hc) hcact
          (by
            show eraseCells s.colHeadN ys d.live c = (done ++ [rn]) ++ todo'
            rw [hlive1c, hdec, List.append_cons])
          htm1 hw41 (by simpa using hf)
      have hdown1 : (applyOuts s ys).downN rn = todo'.headD c := by
        have hfr : ∀ y ∈ ys, rn ∉ s.colHeadN y :: d.live (s.colHeadN y) := by
          intro y hy hmem
          rcases List.mem_cons.mp hmem with he | hmem2
          · have h1 := (hyheader y hy).2
            rw [← he] at h1
            have h2 := hrncell.1
            have h3 := hc.2
            omega
          · have h1 := (hw.mem _ (hyheader y hy) rn hmem2).2
            exact (hmates y hy).1 (by rw [← h1, hrnch])
        have h1 := (hframe1 rn hfr).1
        have h2 := (chain_next_at (hw.ring c hc) done todo' rn hdec).1
        rw [h1, h2]
      have hunfold : coverCol s c rn (fuel+1) =
          coverCol (applyOuts s ys) c (todo'.headD c) fuel := by
        show (if rn = c then s
          else coverCol (coverRow s rn (s.rightN rn) s.size) c
            ((coverRow s rn (s.rightN rn) s.size).downN rn) fuel) = _
        rw [if_neg hrnc, hrun, hdown1]
      rw [hunfold]
      have hdisC : ∀ i, i ∈ c :: d.live c →
          ∀ y ∈ ys, i ∉ s.colHeadN y :: d.live (s.colHeadN y) := by
        intro i hi y hy
        exact ring_sets_disjoint hw hc (hyheader y hy)
          (fun he => (hmates y hy).1 he.symm) hi
      refine ⟨live2, hcore2, hw42, ?_, ?_, ?_, ?_, ?_, ?_, ?_, ?_, ?_, ?_, ?_⟩
      · rw [hlive2c]
        exact hlive1c
      · intro h z hz
        exact hlive1sub h z (hlive2sub h z hz)
      · intro i hi
        have hi1 : i ∈ c :: eraseCells s.colHeadN ys d.live c := by
          rw [hlive1c]
          exact hi
        obtain ⟨hd2, hu2⟩ := hframe2 i hi1
        obtain ⟨hd1, hu1⟩ := hframe1 i (hdisC i hi)
        constructor
        · rw [hd2, hd1]
        · rw [hu2, hu1]
      · rw [hl2, applyOuts_left]
      · rw [hr2, applyOuts_right]
      · rw [hchl2, applyOuts_colHead]
      · rw [hro2, applyOuts_rowOf]
      · rw [hsz2, applyOuts_size]
      · rw [hnr2, applyOuts_numRows]
      · rw [hnc2, applyOuts_numCols]
      · have hlchain : List.Chain' (fun a b => s.leftN a = b) (rn :: ys.reverse ++ [rn]) := by
          have h1 := chain_prev_of_chain _ _ _ hychain
          have h2 : (rn :: ys ++ [rn]).reverse = rn :: ys.reverse ++ [rn] := by
            simp
          rw [h2] at h1
          exact h1
        have hjl : s.leftN rn = ys.reverse.headD rn := by
          cases hys2 : ys.reverse with
          | nil =>
            rw [hys2] at hlchain
            simpa using (List.chain'_cons.mp hlchain).1
          | cons z zs =>
            rw [hys2] at hlchain
            simpa using (List.chain'_cons.mp hlchain).1
        have hrowinv : uncoverRow (applyOuts s ys) rn ((applyOuts s ys).leftN rn)
            (applyOuts s ys).size = s := by
          have h2 := uncoverRow_walk ys.reverse (applyOuts s ys) rn (ys.reverse.headD rn)
            s.size (by rw [List.length_reverse]; exact hysfuel) rfl
            (by
              show List.Chain' (fun a b => (applyOuts s ys).leftN a = b) (ys.reverse ++ [rn])
              rw [hlfun]
              exact hlchain.tail)
            (fun z hz => hynotrn z (List.mem_reverse.mp hz))
          rw [hlfun, hjl, hsz, h2]
          exact applyIns_reverse_applyOuts ys s hgs
        have hupval : s.upN rn = done.getLastD c :=
          (chain_next_at (hw.ring c hc) done todo' rn hdec).2
        have hstep : UncoverWalk c (applyOuts s ys) [rn] (done.getLastD c) s := by
          refine UncoverWalk.cons _ _ _ _ _ _ hrnc hrowinv ?_ (UncoverWalk.nil s _)
          exact hupval
        have hwalk2' : UncoverWalk c (coverCol (applyOuts s ys) c (todo'.headD c) fuel)
            todo'.reverse ([rn].headD (done.getLastD c)) (applyOuts s ys) := by
          have he : (done ++ [rn]).getLastD c = rn := getLastD_append_single done rn c
          rw [he] at hwalk2
          exact hwalk2
        have hcomb := UncoverWalk.append_walk hwalk2' hstep
        rw [List.reverse_cons]
        exact hcomb

end Gox

namespace Gox

theorem headD_reverse (l : List Nat) (d : Nat) : l.reverse.headD d = l.getLastD d := by
  induction l with
  | nil => rfl
  | cons a l ih =>
    rw [List.reverse_cons, List.getLastD_cons]
    cases hl : l.reverse with
    | nil =>
      have hnil : l = [] := by
        have := congrArg List.reverse hl
        simpa using this
      subst hnil
      rfl
    | cons b bs =>
      have hlr : l = bs.reverse ++ [b] := by
        have := congrArg List.reverse hl
        simpa using this
      rw [hlr, getLastD_append_single]
      rfl

/-- First and last elements of a ring, as seen from the sentinel. -/
theorem ring_head {next prev : Nat → Nat} {x0 : Nat} {xs : List Nat}
    (h : IsRing next prev x0 xs) :
    next x0 = xs.headD x0 ∧ prev x0 = xs.getLastD x0 := by
  constructor
  · have h1 := chain_next_of_chain _ _ _ h.1
    cases xs with
    | nil => simpa using (List.chain'_cons.mp h1).1
    | cons z zs => simpa using (List.chain'_cons.mp h1).1
  · have h1 := chain_prev_of_chain _ _ _ h.1
    have h2 : (x0 :: xs ++ [x0]).reverse = x0 :: xs.reverse ++ [x0] := by
      simp
    rw [h2] at h1
    have h3 : prev x0 = xs.reverse.headD x0 := by
      cases hys : xs.reverse with
      | nil =>
        rw [hys] at h1
        simpa using (List.chain'_cons.mp h1).1
      | cons z zs =>
        rw [hys] at h1
        simpa using (List.chain'_cons.mp h1).1
    rw [h3, headD_reverse]

set_option maxHeartbeats 1000000 in
/-- `cover` of an active column: the invariant holds with the column removed
from the root ring, the covered column's ring is untouched, the static fields
and every cell's row links are untouched, and an immediate `uncover` of the
same column restores the state exactly. -/
theorem cover_spec {s : matrixLinks} {d : WFData} {c : Nat}
    (hwf : DlxWF s d) (hc : c ∈ d.act) :
    ∃ live2,
      DlxWF (cover s c) ⟨d.act.erase c, live2, d.rowCells⟩ ∧
      live2 c = d.live c ∧
      (∀ h z, z ∈ live2 h → z ∈ d.live h) ∧
      (cover s c).colHead = s.colHead ∧
      (cover s c).rowOf = s.rowOf ∧
      (cover s c).size = s.size ∧
      (cover s c).numRows = s.numRows ∧
      (cover s c).numCols = s.numCols ∧
      (∀ x, isCellIdx s x →
        (cover s c).rightN x = s.rightN x ∧ (cover s c).leftN x = s.leftN x) ∧
      uncover (cover s c) c = s := by
  obtain ⟨hcore, hw4⟩ := hwf
  have hw := hcore.col
  have hcHdr : isHeaderIdx s c := hcore.actHdr c hc
  obtain ⟨hcore0, hner, hnel, hlr, hrl, hlmem, hrmem⟩ := headUnlink_core hcore hc
  have hactnd : d.act.Nodup := (List.nodup_cons.mp hcore.root.2).2
  have hcnotin : c ∉ d.act.erase c := hactnd.not_mem_erase
  have htm0 : TodoMates (headUnlinkLR s c) ⟨d.act.erase c, d.live, d.rowCells⟩ c
      (d.live c) := by
    intro rn hrn y hy
    have hy' : y ∈ d.rowCells (s.rowOfN rn) := hy
    obtain ⟨hyact, hylive⟩ := hw4 c hc rn hrn y hy'
    by_cases he : y = rn
    · exact Or.inl he
    · have hrnrow : rn ∈ d.rowCells (s.rowOfN rn) := hcore.cellRow c hcHdr rn hrn
      have hrnch : s.colHeadN rn = c := (hw.mem c hcHdr rn hrn).2
      have hchne : s.colHeadN y ≠ c := by
        intro hch
        exact he (eq_of_nodup_map (hcore.rowCols (s.rowOfN rn)) hy' hrnrow
          (by rw [hch, hrnch]))
      exact Or.inr ⟨hchne, (List.mem_erase_of_ne hchne).mpr hyact, hylive⟩
  have hw40 : W4Except (headUnlinkLR s c) ⟨d.act.erase c, d.live, d.rowCells⟩
      (d.live c) := by
    intro h hh x hx
    have hh' : h ∈ d.act := List.mem_of_mem_erase hh
    by_cases hmem : s.rowOfN x ∈ (d.live c).map s.rowOfN
    · exact Or.inl hmem
    · refine Or.inr ?_
      intro y hy
      have hy' : y ∈ d.rowCells (s.rowOfN x) := hy
      obtain ⟨hyact, hylive⟩ := hw4 h hh' x hx y hy'
      have hychne : s.colHeadN y ≠ c := by
        intro hch
        refine hmem ?_
        rw [hch] at hylive
        have h1 := (hcore.rowMem _ y hy').2.1
        rw [← h1]
        exact List.mem_map_of_mem s.rowOfN hylive
      exact ⟨(List.mem_erase_of_ne hychne).mpr hyact, hylive⟩
  have hfuel : (d.live c).length < (headUnlinkLR s c).size := by
    have hnodes : ∀ x ∈ c :: d.live c, x < s.size :=
      fun x hx => node_lt_size hcore.len hw hcHdr hx
    have hle := nodup_all_lt_length_le (hw.ring c hcHdr).2 hnodes
    simp at hle
    show (d.live c).length < s.size
    omega
  obtain ⟨live2, hcore2, hw42, hlive2c, hlive2sub, hframe2, hl2, hr2, hch2, hro2,
      hsz2, hnr2, hnc2, hwalk2⟩ :=
    coverCol_spec c (d.live c) [] (headUnlinkLR s c)
      ⟨d.act.erase c, d.live, d.rowCells⟩ (headUnlinkLR s c).size hcore0 hcHdr hcnotin
      (List.nil_append _).symm htm0 hw40 hfuel
  have hdc : (headUnlinkLR s c).downN c = (d.live c).headD c := by
    show s.downN c = (d.live c).headD c
    exact (ring_head (hw.ring c hcHdr)).1
  have hcover_eq : cover s c =
      coverCol (headUnlinkLR s c) c ((d.live c).headD c) (headUnlinkLR s c).size := by
    rw [cover_eq_coverCol, hdc]
  rw [hcover_eq]
  have hrcle : s.rightN c ≤ s.numCols := rootlike_le hcore _ hrmem
  have hlcle : s.leftN c ≤ s.numCols := rootlike_le hcore _ hlmem
  have hbl : s.rightN c < s.left.length := by
    rw [hcore.len.left]
    have h1 := hcore.len.cols
    have h2 := hcore.len.size
    omega
  have hbr : s.leftN c < s.right.length := by
    rw [hcore.len.right]
    have h1 := hcore.len.cols
    have h2 := hcore.len.size
    omega
  refine ⟨live2, ⟨hcore2, hw42⟩, ?_, hlive2sub, ?_, ?_, ?_, ?_, ?_, ?_, ?_⟩
  · rw [hlive2c]
  · rw [hch2, headUnlinkLR_colHead]
  · rw [hro2, headUnlinkLR_rowOf]
  · rw [hsz2, headUnlinkLR_size]
  · rw [hnr2, headUnlinkLR_numRows]
  · rw [hnc2, headUnlinkLR_numCols]
  · intro x hx
    have hxc : s.numCols + 1 ≤ x := hx.1
    have hRfun := headUnlinkLR_rightN s c hner hbr
    have hLfun := headUnlinkLR_leftN s c hbl
    constructor
    · have h1 : (coverCol (headUnlinkLR s c) c ((d.live c).headD c)
          (headUnlinkLR s c).size).rightN x = (headUnlinkLR s c).rightN x := by
        show (coverCol (headUnlinkLR s c) c ((d.live c).headD c)
          (headUnlinkLR s c).size).right.getD x 0 = (headUnlinkLR s c).right.getD x 0
        rw [hr2]
      rw [h1, hRfun]
      exact Function.update_noteq (fun he => by omega) _ _
    · have h1 : (coverCol (headUnlinkLR s c) c ((d.live c).headD c)
          (headUnlinkLR s c).size).leftN x = (headUnlinkLR s c).leftN x := by
        show (coverCol (headUnlinkLR s c) c ((d.live c).headD c)
          (headUnlinkLR s c).size).left.getD x 0 = (headUnlinkLR s c).left.getD x 0
        rw [hl2]
      rw [h1, hLfun]
      exact Function.update_noteq (fun he => by omega) _ _
  · -- the round trip
    have hupT : (coverCol (headUnlinkLR s c) c ((d.live c).headD c)
        (headUnlinkLR s c).size).upN c = s.upN c := by
      have h1 := (hframe2 c (List.mem_cons_self ..)).2
      rw [h1]
      rfl
    have hustart : (coverCol (headUnlinkLR s c) c ((d.live c).headD c)
        (headUnlinkLR s c).size).upN c = (d.live c).reverse.headD c := by
      rw [hupT, headD_reverse]
      exact (ring_head (hw.ring c hcHdr)).2
    have hszT : (coverCol (headUnlinkLR s c) c ((d.live c).headD c)
        (headUnlinkLR s c).size).size = s.size := by
      rw [hsz2, headUnlinkLR_size]
    have hrevfuel : (d.live c).reverse.length < (coverCol (headUnlinkLR s c) c
        ((d.live c).headD c) (headUnlinkLR s c).size).size := by
      rw [List.length_reverse, hszT]
      have h1 : (d.live c).length < (headUnlinkLR s c).size := hfuel
      exact h1
    have hcolrun : uncoverCol (coverCol (headUnlinkLR s c) c ((d.live c).headD c)
        (headUnlinkLR s c).size) c ((coverCol (headUnlinkLR s c) c ((d.live c).headD c)
        (headUnlinkLR s c).size).upN c) (coverCol (headUnlinkLR s c) c
        ((d.live c).headD c) (headUnlinkLR s c).size).size = headUnlinkLR s c := by
      rw [hustart, hszT]
      exact uncoverCol_eq_of_walk s.size (by rw [List.length_reverse]; exact hfuel) hwalk2
    rw [uncover_eq_uncoverCol, hcolrun]
    exact headRelink_headUnlink s c hlr hrl hner hnel

/-- Immediate `cover`/`uncover` round trip on any well-formed state. -/
theorem cover_uncover_roundtrip {s : matrixLinks} {d : WFData} {c : Nat}
    (hwf : DlxWF s d) (hc : c ∈ d.act) : uncover (cover s c) c = s := by
  obtain ⟨live2, _, _, _, _, _, _, _, _, _, hrt⟩ := cover_spec hwf hc
  exact hrt

end Gox

namespace Gox

theorem getLastD_mem_cons (l : List Nat) (x0 : Nat) : l.getLastD x0 ∈ x0 :: l := by
  cases hl : l with
  | nil => exact List.mem_cons_self ..
  | cons a t =>
    have h1 : (a :: t).getLastD x0 = t.getLastD a := List.getLastD_cons ..
    have h2 : (a :: t).getLast? = some (t.getLastD a) := getLast?_eq_getLastD a t
    have h3 : t.getLastD a ∈ a :: t := by
      have hne : (a :: t) ≠ [] := by simp
      rw [List.getLast?_eq_getLast_of_ne_nil hne] at h2
      have := (Option.some.inj h2).symm
      rw [this]
      exact List.getLast_mem hne
    rw [h1]
    exact List.mem_cons_of_mem _ h3

/-- Inserting a fresh node `j` just before the sentinel of a ring, by the
four-pointer write sequence the Go builders use (`j.next = x0;
j.prev = x0.prev; x0.prev.next = j; x0.prev = j`). -/
theorem ring_insert {next prev : Nat → Nat} {x0 : Nat} {xs : List Nat}
    (h : IsRing next prev x0 xs) {j : Nat} (hj : j ∉ x0 :: xs) :
    IsRing (Function.update (Function.update next j x0) (prev x0) j)
           (Function.update (Function.update prev j (prev x0)) x0 j) x0 (xs ++ [j]) := by
  obtain ⟨hch, hnd⟩ := h
  have hpl : prev x0 = xs.getLastD x0 := (ring_head ⟨hch, hnd⟩).2
  have hplmem : prev x0 ∈ x0 :: xs := by
    rw [hpl]
    exact getLastD_mem_cons xs x0
  have hjne : ∀ a ∈ x0 :: xs, a ≠ j := fun a ha he => hj (he ▸ ha)
  have hjx0 : j ≠ x0 := fun he => hj (he ▸ List.mem_cons_self ..)
  have hjpl : j ≠ prev x0 := fun he => hj (he ▸ hplmem)
  have hlast : (x0 :: xs).getLast? = some (prev x0) := by
    rw [getLast?_eq_getLastD, hpl]
  have hplast : prev x0 ∉ (x0 :: xs).dropLast :=
    getLast?_not_mem_dropLast hnd hlast
  have hx0tail : ∀ b ∈ xs, b ≠ x0 := by
    intro b hb he
    exact (List.nodup_cons.mp hnd).1 (he ▸ hb)
  have hnd' : (x0 :: (xs ++ [j])).Nodup := by
    rw [show x0 :: (xs ++ [j]) = (x0 :: xs) ++ [j] from rfl, List.nodup_append]
    refine ⟨hnd, List.nodup_singleton j, ?_⟩
    intro a ha hb
    have : a = j := by simpa using hb
    exact hjne a ha this
  refine ⟨?_, hnd'⟩
  have hchmain : List.Chain' (ringStep next prev) (x0 :: xs) := by
    rw [show x0 :: xs ++ [x0] = (x0 :: xs) ++ [x0] from rfl, List.chain'_append] at hch
    exact hch.1
  have hchmain' : List.Chain'
      (ringStep (Function.update (Function.update next j x0) (prev x0) j)
        (Function.update (Function.update prev j (prev x0)) x0 j)) (x0 :: xs) := by
    refine chain'_imp_mem _ hchmain ?_
    intro a b ha hb hr
    have hadl : a ∈ x0 :: xs := List.dropLast_subset _ ha
    have hbtl : b ∈ xs := hb
    have hanej : a ≠ j := hjne a hadl
    have hanepl : a ≠ prev x0 := fun he => hplast (he ▸ ha)
    have hbnej : b ≠ j := hjne b (List.mem_cons_of_mem _ hbtl)
    have hbnex0 : b ≠ x0 := hx0tail b hbtl
    constructor
    · rw [Function.update_noteq hanepl, Function.update_noteq hanej]
      exact hr.1
    · rw [Function.update_noteq hbnex0, Function.update_noteq hbnej]
      exact hr.2
  rw [show x0 :: (xs ++ [j]) ++ [x0] = (x0 :: xs) ++ [j, x0] by simp, List.chain'_append]
  refine ⟨hchmain', ?_, ?_⟩
  · refine List.chain'_cons.mpr ⟨⟨?_, ?_⟩, List.chain'_singleton x0⟩
    · rw [Function.update_noteq hjpl, Function.update_same]
    · rw [Function.update_same]
  · intro a ha b hb
    have ha' : a = prev x0 := by
      rw [hlast] at ha
      exact (by simpa using ha : prev x0 = a).symm
    have hb' : b = j := (by simpa using hb : j = b).symm
    subst ha'
    subst hb'
    constructor
    · rw [Function.update_same]
    · rw [Function.update_noteq hjx0, Function.update_same]

end Gox

namespace Gox

/-! ## Field-level description of `addOneCell` -/

theorem addOneCell_size (p : exactCoverProblem) (r ci : Nat) (fn : Option Nat) :
    (addOneCell p r fn ci).links.size = p.links.size + 1 := by
  by_cases hc : p.rowFirst[r]?.getD none = none <;> cases fn <;>
    simp [addOneCell, hc, setLeft, setRight, setUp, setDown, setColCount,
      matrixLinks.leftN, matrixLinks.rightN, matrixLinks.upN, matrixLinks.downN,
      matrixLinks.colCountN]

theorem addOneCell_numRows (p : exactCoverProblem) (r ci : Nat) (fn : Option Nat) :
    (addOneCell p r fn ci).links.numRows = p.links.numRows := by
  by_cases hc : p.rowFirst[r]?.getD none = none <;> cases fn <;>
    simp [addOneCell, hc, setLeft, setRight, setUp, setDown, setColCount,
      matrixLinks.leftN, matrixLinks.rightN, matrixLinks.upN, matrixLinks.downN,
      matrixLinks.colCountN]

theorem addOneCell_numCols (p : exactCoverProblem) (r ci : Nat) (fn : Option Nat) :
    (addOneCell p r fn ci).links.numCols = p.links.numCols := by
  by_cases hc : p.rowFirst[r]?.getD none = none <;> cases fn <;>
    simp [addOneCell, hc, setLeft, setRight, setUp, setDown, setColCount,
      matrixLinks.leftN, matrixLinks.rightN, matrixLinks.upN, matrixLinks.downN,
      matrixLinks.colCountN]

theorem addOneCell_rowOf (p : exactCoverProblem) (r ci : Nat) (fn : Option Nat) :
    (addOneCell p r fn ci).links.rowOf = p.links.rowOf.set p.links.size r := by
  by_cases hc : p.rowFirst[r]?.getD none = none <;> cases fn <;>
    simp [addOneCell, hc, setLeft, setRight, setUp, setDown, setColCount,
      matrixLinks.leftN, matrixLinks.rightN, matrixLinks.upN, matrixLinks.downN,
      matrixLinks.colCountN]

theorem addOneCell_colHead (p : exactCoverProblem) (r ci : Nat) (fn : Option Nat) :
    (addOneCell p r fn ci).links.colHead = p.links.colHead.set p.links.size (ci + 1) := by
  by_cases hc : p.rowFirst[r]?.getD none = none <;> cases fn <;>
    simp [addOneCell, hc, setLeft, setRight, setUp, setDown, setColCount,
      matrixLinks.leftN, matrixLinks.rightN, matrixLinks.upN, matrixLinks.downN,
      matrixLinks.colCountN]

theorem addOneCell_colIndex (p : exactCoverProblem) (r ci : Nat) (fn : Option Nat) :
    (addOneCell p r fn ci).links.colIndex =
      p.links.colIndex.set p.links.size (ci : Int) := by
  by_cases hc : p.rowFirst[r]?.getD none = none <;> cases fn <;>
    simp [addOneCell, hc, setLeft, setRight, setUp, setDown, setColCount,
      matrixLinks.leftN, matrixLinks.rightN, matrixLinks.upN, matrixLinks.downN,
      matrixLinks.colCountN]

theorem addOneCell_colCount (p : exactCoverProblem) (r ci : Nat) (fn : Option Nat) :
    (addOneCell p r fn ci).links.colCount =
      p.links.colCount.set (ci + 1) (p.links.colCountN (ci + 1) + 1) := by
  by_cases hc : p.rowFirst[r]?.getD none = none <;> cases fn <;>
    simp [addOneCell, hc, setLeft, setRight, setUp, setDown, setColCount,
      matrixLinks.leftN, matrixLinks.rightN, matrixLinks.upN, matrixLinks.downN,
      matrixLinks.colCountN]

theorem addOneCell_up (p : exactCoverProblem) (r ci : Nat) (fn : Option Nat) :
    (addOneCell p r fn ci).links.up =
      (p.links.up.set p.links.size (p.links.upN (ci + 1))).set (ci + 1) p.links.size := by
  by_cases hc : p.rowFirst[r]?.getD none = none <;> cases fn <;>
    simp [addOneCell, hc, setLeft, setRight, setUp, setDown, setColCount,
      matrixLinks.leftN, matrixLinks.rightN, matrixLinks.upN, matrixLinks.downN,
      matrixLinks.colCountN]

theorem addOneCell_down (p : exactCoverProblem) (r ci : Nat) (fn : Option Nat) :
    (addOneCell p r fn ci).links.down =
      (p.links.down.set p.links.size (ci + 1)).set
        ((p.links.up.set p.links.size (p.links.upN (ci + 1))).getD (ci + 1) 0)
        p.links.size := by
  by_cases hc : p.rowFirst[r]?.getD none = none <;> cases fn <;>
    simp [addOneCell, hc, setLeft, setRight, setUp, setDown, setColCount,
      matrixLinks.leftN, matrixLinks.rightN, matrixLinks.upN, matrixLinks.downN,
      matrixLinks.colCountN]

theorem addOneCell_left_none (p : exactCoverProblem) (r ci : Nat) :
    (addOneCell p r none ci).links.left = p.links.left.set p.links.size p.links.size := by
  by_cases hc : p.rowFirst[r]?.getD none = none <;>
    simp [addOneCell, hc, setLeft, setRight, setUp, setDown, setColCount,
      matrixLinks.leftN, matrixLinks.rightN, matrixLinks.upN, matrixLinks.downN,
      matrixLinks.colCountN]

theorem addOneCell_right_none (p : exactCoverProblem) (r ci : Nat) :
    (addOneCell p r none ci).links.right =
      p.links.right.set p.links.size p.links.size := by
  by_cases hc : p.rowFirst[r]?.getD none = none <;>
    simp [addOneCell, hc, setLeft, setRight, setUp, setDown, setColCount,
      matrixLinks.leftN, matrixLinks.rightN, matrixLinks.upN, matrixLinks.downN,
      matrixLinks.colCountN]

theorem addOneCell_left_some (p : exactCoverProblem) (r ci f : Nat) :
    (addOneCell p r (some f) ci).links.left =
      (p.links.left.set p.links.size (p.links.leftN f)).set f p.links.size := by
  by_cases hc : p.rowFirst[r]?.getD none = none <;>
    simp [addOneCell, hc, setLeft, setRight, setUp, setDown, setColCount,
      matrixLinks.leftN, matrixLinks.rightN, matrixLinks.upN, matrixLinks.downN,
      matrixLinks.colCountN]

theorem addOneCell_right_some (p : exactCoverProblem) (r ci f : Nat) :
    (addOneCell p r (some f) ci).links.right =
      (p.links.right.set p.links.size f).set
        ((p.links.left.set p.links.size (p.links.leftN f)).getD f 0) p.links.size := by
  by_cases hc : p.rowFirst[r]?.getD none = none <;>
    simp [addOneCell, hc, setLeft, setRight, setUp, setDown, setColCount,
      matrixLinks.leftN, matrixLinks.rightN, matrixLinks.upN, matrixLinks.downN,
      matrixLinks.colCountN]





/-! ## Helpers for the builder induction -/

theorem getD_set_set_fun {α : Type} (l : List α) (i : Nat) (v : α) (i' : Nat) (v' d : α)
    (hi : i < l.length) (hi' : i' < l.length) :
    (fun k => ((l.set i v).set i' v').getD k d) =
      Function.update (Function.update (fun k => l.getD k d) i v) i' v' := by
  rw [show (fun k => ((l.set i v).set i' v').getD k d) =
      Function.update (fun k => (l.set i v).getD k d) i' v' from
    getD_set_fun _ _ _ _ (by rw [List.length_set]; exact hi'),
    getD_set_fun _ _ _ _ hi]

/-- Number of `true` entries of a row. -/
def countTrue (row : List Bool) : Nat := (row.filter id).length

theorem countTrue_cons (b : Bool) (row : List Bool) :
    countTrue (b :: row) = (if b then 1 else 0) + countTrue row := by
  cases b <;> simp [countTrue, List.filter] <;> omega

theorem countTrue_le (row : List Bool) : countTrue row ≤ row.length :=
  List.length_filter_le _ _

/-- The one-based column indexes of the `true` entries of the remaining part
of a row, `ci` entries having been consumed. -/
def trueColsFrom (ci : Nat) : List Bool → List Nat
  | [] => []
  | b :: rest =>
    if b then (ci + 1) :: trueColsFrom (ci + 1) rest else trueColsFrom (ci + 1) rest

theorem trueColsFrom_bounds : ∀ (cells : List Bool) (ci : Nat),
    ∀ h ∈ trueColsFrom ci cells, ci + 1 ≤ h ∧ h ≤ ci + cells.length := by
  intro cells
  induction cells with
  | nil => intro ci h hh; exact absurd hh (List.not_mem_nil h)
  | cons b rest ih =>
    intro ci h hh
    cases b with
    | true =>
      rw [show trueColsFrom ci (true :: rest) = (ci + 1) :: trueColsFrom (ci + 1) rest
        from rfl] at hh
      rcases List.mem_cons.mp hh with rfl | hh
      · refine ⟨Nat.le_refl _, ?_⟩
        simp only [List.length_cons]
        omega
      · have := ih (ci + 1) h hh
        simp only [List.length_cons]
        omega
    | false =>
      rw [show trueColsFrom ci (false :: rest) = trueColsFrom (ci + 1) rest from rfl] at hh
      have := ih (ci + 1) h hh
      simp only [List.length_cons]
      omega

theorem trueColsFrom_nodup : ∀ (cells : List Bool) (ci : Nat),
    (trueColsFrom ci cells).Nodup := by
  intro cells
  induction cells with
  | nil => intro ci; exact List.nodup_nil
  | cons b rest ih =>
    intro ci
    cases b with
    | true =>
      rw [show trueColsFrom ci (true :: rest) = (ci + 1) :: trueColsFrom (ci + 1) rest
        from rfl]
      refine List.nodup_cons.mpr ⟨?_, ih (ci + 1)⟩
      intro hmem
      have := (trueColsFrom_bounds rest (ci + 1) _ hmem).1
      omega
    | false =>
      rw [show trueColsFrom ci (false :: rest) = trueColsFrom (ci + 1) rest from rfl]
      exact ih (ci + 1)

end Gox
